import Mathlib

/-!
Verification of the LL(1) grammar pipeline in `cfg_parser.cpp`.

The C++ program stores a grammar as `std::map<string, vector<string>>`,
where each production is a space-separated token string; every consumer
re-tokenizes a production with `split(prod, ' ')` (which drops empty
tokens), and every producer joins token sequences back with single
spaces (plus harmless trailing spaces).  Join-then-split is the identity
on token sequences, so the embedding below works directly at the token
level: a production is a `List String` of its tokens, and the textual
`split` function of the source is absorbed into this representation.
`std::map` iterates its entries in ascending key order and `operator[]`
assignment overwrites, which is modelled by sorted association lists
(`mapInsert` / `mapLookup`) ordered by code-point-lexicographic string
comparison (`strLt`), the order `std::string`'s `<` realizes on UTF-8
bytes.  `std::set<string>` is modelled the same way (`setInsert` /
`setMem`): a sorted duplicate-free list of strings.
-/

namespace CFG

/-- Lexicographic comparison of character lists by code point, the order
`std::string::operator<` gives on UTF-8 encoded strings. -/
def chLt : List Char → List Char → Bool
  | _, [] => false
  | [], _ :: _ => true
  | a :: as, b :: bs =>
    if a.toNat < b.toNat then true
    else if b.toNat < a.toNat then false
    else chLt as bs

/-- Comparison of strings, matching `std::string::operator<`. -/
def strLt (a b : String) : Bool := chLt a.data b.data

/-- Production of the grammar: the token sequence of one alternative. -/
abbrev Production := List String

/-- Grammar as `std::map<string, vector<string>>`: association list from
non-terminal name to its ordered productions, kept sorted by `strLt`. -/
abbrev Grammar := List (String × List Production)

/-- Symbol set as `std::set<string>`: a sorted list of strings. -/
abbrev SymSet := List String

/-- Map from non-terminal to symbol set, as `std::map<string, set<string>>`. -/
abbrev SetMap := List (String × SymSet)

/-- Insertion into a sorted association list; on an existing key the value
is overwritten, as `std::map::operator[]` assignment does. -/
def mapInsert {α : Type} (k : String) (v : α) : List (String × α) → List (String × α)
  | [] => [(k, v)]
  | (k1, v1) :: r =>
    if strLt k k1 then (k, v) :: (k1, v1) :: r
    else if strLt k1 k then (k1, v1) :: mapInsert k v r
    else (k, v) :: r

/-- Lookup in a sorted association list (`std::map::find`). -/
def mapLookup {α : Type} (k : String) : List (String × α) → Option α
  | [] => none
  | (k1, v1) :: r =>
    if strLt k k1 then none
    else if strLt k1 k then mapLookup k r
    else some v1

/-- Insertion into a sorted string set (`std::set::insert`). -/
def setInsert (x : String) : List String → List String
  | [] => [x]
  | y :: r =>
    if strLt x y then x :: y :: r
    else if strLt y x then y :: setInsert x r
    else y :: r

/-- Membership test for the set model (`std::set::find`/`count`). -/
def setMem (x : String) : List String → Bool
  | [] => false
  | y :: r => if x = y then true else setMem x r

/-- Keys of an association list, in order. -/
def keysOf {α : Type} (m : List (String × α)) : List String := m.map (fun e => e.1)

/-- Set stored for `k`, with `std::map::operator[]`'s empty default. -/
def getSet (m : SetMap) (k : String) : SymSet := (mapLookup k m).getD []

/-- One `follow[k].insert(x)` / `first[k].insert(x)` step of the source. -/
def addSym (k x : String) (m : SetMap) : SetMap := mapInsert k (setInsert x (getSet m k)) m

/-- Inserting every symbol of `xs` except `"ε"` into the set of `k`: the
source's `for (sym : S) if (sym != "ε") target.insert(sym)` loops. -/
def addSymsNoEps (k : String) (xs : List String) (m : SetMap) : SetMap :=
  xs.foldl (fun acc x => if x = "ε" then acc else addSym k x acc) m

/-- Inserting every symbol of `xs` into the set of `k`: the source's
unfiltered `for (sym : S) target.insert(sym)` loops. -/
def addSymsAll (k : String) (xs : List String) (m : SetMap) : SetMap :=
  xs.foldl (fun acc x => addSym k x acc) m

/-- Terminal/non-terminal classification of the source: a token is a
non-terminal iff it is a key of the grammar (`grammar.find(token) != end`). -/
def isNT (g : Grammar) (t : String) : Bool := (mapLookup t g).isSome

/-! The left factorer (`commonPrefix` and `leftFactor` of the source). -/

/-- Longest common prefix of two token sequences (`commonPrefix`). -/
def commonPref : List String → List String → List String
  | a :: as, b :: bs => if a = b then a :: commonPref as bs else []
  | _, _ => []

/-- Fold of `commonPref` over the remaining productions, with the
source's early exit once the running prefix is empty. -/
def foldPref (c : List String) : List Production → List String
  | [] => c
  | p :: rest =>
    let c1 := commonPref c p
    if c1 = [] then c1 else foldPref c1 rest

/-- Appending a production to a map entry, as
`newProds[nonTerminal].push_back(...)` (default-constructs the entry). -/
def mapPush (k : String) (p : Production) (m : List (String × List Production)) :
    List (String × List Production) :=
  mapInsert k ((mapLookup k m).getD [] ++ [p]) m

/-- The fresh non-terminal name `leftFactor` allocates at counter `c`. -/
def factorName (nt : String) (c : Nat) : String :=
  if c > 1 then nt ++ "'" ++ toString c else nt ++ "'"

/-- Left factoring of one non-terminal (`leftFactor` of the source).
Returns the updated output map and the updated fresh-name counter. -/
def leftFactor (nt : String) (prods : List Production)
    (m : List (String × List Production)) (c : Nat) :
    List (String × List Production) × Nat :=
  match prods with
  | [] => (mapInsert nt prods m, c)
  | [_] => (mapInsert nt prods m, c)
  | p :: q :: rest =>
    let common := foldPref p (q :: rest)
    if common = [] then (mapInsert nt prods m, c)
    else
      let newNT := factorName nt c
      let m1 := mapPush nt (common ++ [newNT]) m
      let suffixes := prods.map (fun r =>
        let suf := r.drop common.length
        if suf = [] then ["ε"] else suf)
      (mapInsert newNT suffixes m1, c + 1)

/-- Phase 1 of `main`: left factoring of every non-terminal, threading the
global counter (initialized to 1) through the map iteration. -/
def leftFactorPhase (raw : Grammar) : Grammar :=
  (raw.foldl (fun (acc : Grammar × Nat) e => leftFactor e.1 e.2 acc.1 acc.2) ([], 1)).1

/-! The left-recursion eliminator (`leftRecursion` of the source). -/

/-- Elimination of immediate left recursion for one non-terminal
(`leftRecursion` of the source). -/
def leftRecursion (nt : String) (prods : List Production) (m : Grammar) : Grammar :=
  let recs := (prods.filter (fun p => p.head? = some nt)).map List.tail
  let nonRecs := prods.filter (fun p => ¬ p.head? = some nt)
  if recs = [] then mapInsert nt prods m
  else
    let newNT := nt ++ "'"
    let m1 := mapInsert nt (nonRecs.map (fun b => b ++ [newNT])) m
    mapInsert newNT (recs.map (fun a => a ++ [newNT]) ++ [["ε"]]) m1

/-- Phase 2 of `main`: left-recursion removal over the factored grammar. -/
def leftRecursionPhase (factored : Grammar) : Grammar :=
  factored.foldl (fun acc e => leftRecursion e.1 e.2 acc) []

/-! The FIRST-set solver (`firstSet` of the source). -/

/-- Initialization of the per-non-terminal set maps: one empty set per
grammar key. -/
def initSets (g : Grammar) : SetMap := g.foldl (fun acc e => mapInsert e.1 [] acc) []

/-- Scan of one production's tokens for FIRST(X), mirroring the inner
loop of `firstSet`: an epsilon token or a terminal ends the scan after one
insertion; a non-terminal contributes its FIRST set minus epsilon and the
scan continues only when that set holds epsilon; reaching the end of the
tokens inserts epsilon. -/
def firstScan (g : Grammar) (X : String) : List String → SetMap → SetMap
  | [], m => addSym X "ε" m
  | t :: rest, m =>
    if t = "ε" then addSym X "ε" m
    else if isNT g t then
      let m1 := addSymsNoEps X (getSet m t) m
      if setMem "ε" (getSet m1 t) then firstScan g X rest m1 else m1
    else addSym X t m

/-- Processing of one production in a FIRST pass; an empty token list is
skipped (`if (tokens.empty()) continue`). -/
def firstProd (g : Grammar) (X : String) (p : Production) (m : SetMap) : SetMap :=
  if p = [] then m else firstScan g X p m

/-- One full pass of the FIRST fixed-point loop over every rule and
production, threading the map (updates are visible within the pass). -/
def firstPass (g : Grammar) (m : SetMap) : SetMap :=
  g.foldl (fun acc e => e.2.foldl (fun a p => firstProd g e.1 p a) acc) m

/-- Iteration of `f` until it makes no change, with explicit fuel; the
source's `while (changed)` loops are this with sufficient fuel, which
`firstPass_fix` and `followPass_fix` prove is always reached. -/
def iterateFix {α : Type} [DecidableEq α] (f : α → α) : Nat → α → α
  | 0, m => m
  | n + 1, m => let m1 := f m; if m1 = m then m else iterateFix f n m1

/-- Fold of `setInsert` over a list: the union of the list into a set. -/
def insFold (l : List String) (s : SymSet) : SymSet :=
  l.foldl (fun a y => setInsert y a) s

/-- Every token occurring in any production of the grammar. -/
def allTokens (g : Grammar) : SymSet :=
  g.foldl (fun acc e => e.2.foldl (fun a p => insFold p a) acc) []

/-- Finite universe bounding every FIRST set: the grammar's tokens plus
epsilon. -/
def univFirst (g : Grammar) : SymSet := setInsert "ε" (allTokens g)

/-- Fuel sufficient for the FIRST fixed point. -/
def firstFuel (g : Grammar) : Nat := g.length * (univFirst g).length + 1

/-- FIRST sets of all non-terminals (`firstSet` of the source). -/
def firstSet (g : Grammar) : SetMap := iterateFix (firstPass g) (firstFuel g) (initSets g)

/-! The FOLLOW-set solver (`computeFollowSets` of the source). -/

/-- Scan of the tokens standing after an occurrence of non-terminal `B`
inside a production of `A`, mirroring the inner `while (true)` loop: a
terminal is inserted into FOLLOW(B) and ends the scan; a non-terminal
contributes FIRST of it minus epsilon and the scan continues only when
that FIRST set holds epsilon; an exhausted remainder adds FOLLOW(A) to
FOLLOW(B).  (`first.at` of the source throws on a missing key; the model
totalizes it with the empty set, which no reachable call exercises since
the pipeline passes a FIRST map with an entry per grammar key.) -/
def followAfter (g : Grammar) (first : SetMap) (A B : String) :
    List String → SetMap → SetMap
  | [], m => addSymsAll B (getSet m A) m
  | t :: rest, m =>
    if isNT g t then
      let m1 := addSymsNoEps B (getSet first t) m
      if setMem "ε" (getSet first t) then followAfter g first A B rest m1 else m1
    else addSym B t m

/-- Processing of every position of one production of `A` in a FOLLOW
pass: each position holding a non-terminal scans the tokens after it. -/
def followPositions (g : Grammar) (first : SetMap) (A : String) :
    List String → SetMap → SetMap
  | [], m => m
  | t :: rest, m =>
    let m1 := if isNT g t then followAfter g first A t rest m else m
    followPositions g first A rest m1

/-- One full pass of the FOLLOW fixed-point loop. -/
def followPass (g : Grammar) (first : SetMap) (m : SetMap) : SetMap :=
  g.foldl (fun acc e => e.2.foldl (fun a p => followPositions g first e.1 p a) acc) m

/-- Initial FOLLOW maps: every set empty, then the end marker `"$"` into
FOLLOW of the start symbol. -/
def followInit (g : Grammar) (startSymbol : String) : SetMap :=
  addSym startSymbol "$" (initSets g)

/-- Every string occurring in a value of a set map. -/
def setMapValues (m : SetMap) : SymSet :=
  m.foldl (fun acc e => insFold e.2 acc) []

/-- Finite universe bounding every FOLLOW set: the grammar's tokens, the
passed FIRST map's symbols and the end marker. -/
def univFollow (g : Grammar) (first : SetMap) : SymSet :=
  setInsert "$" (insFold (allTokens g) (setMapValues first))

/-- Fuel sufficient for the FOLLOW fixed point. -/
def followFuel (g : Grammar) (first : SetMap) : Nat :=
  (g.length + 1) * (univFollow g first).length + 1

/-- FOLLOW sets of all non-terminals (`computeFollowSets` of the source). -/
def computeFollowSets (g : Grammar) (first : SetMap) (startSymbol : String) : SetMap :=
  iterateFix (followPass g first) (followFuel g first) (followInit g startSymbol)

/-! FIRST of a token string and the table builder (`computeFirstOfString`
and Phase 5 of `main`). -/

/-- Accumulating scan of `computeFirstOfString`: a terminal is inserted
and ends the scan; a non-terminal contributes FIRST of it minus epsilon,
ending the scan unless that FIRST set holds epsilon; if every token
derived epsilon (including the empty sequence), epsilon is inserted. -/
def cfsAux (g : Grammar) (first : SetMap) : List String → SymSet → SymSet
  | [], acc => setInsert "ε" acc
  | t :: rest, acc =>
    if isNT g t then
      let acc1 := (getSet first t).foldl
        (fun a x => if x = "ε" then a else setInsert x a) acc
      if setMem "ε" (getSet first t) then cfsAux g first rest acc1 else acc1
    else setInsert t acc

/-- FIRST set of a token sequence (`computeFirstOfString` of the source). -/
def computeFirstOfString (g : Grammar) (first : SetMap) (tokens : List String) : SymSet :=
  cfsAux g first tokens []

/-- Parsing table: non-terminal, then terminal, to the chosen production
(`map<string, map<string, string>>`). -/
abbrev Table := List (String × List (String × Production))

/-- One `parsingTable[A][t] = prod` assignment of the source. -/
def tblInsert (A t : String) (p : Production) (tbl : Table) : Table :=
  mapInsert A (mapInsert t p ((mapLookup A tbl).getD [])) tbl

/-- Table row of non-terminal `A`. -/
def tblRow (tbl : Table) (A : String) : List (String × Production) :=
  (mapLookup A tbl).getD []

/-- Cell of the table at non-terminal `A` and terminal `t`. -/
def tblCell (tbl : Table) (A t : String) : Option Production :=
  mapLookup t (tblRow tbl A)

/-- Processing of one production `p` of non-terminal `A` by the table
builder: every member of FIRST(p) except epsilon claims a cell, and, when
epsilon is a member of FIRST(p), every member of FOLLOW(A) claims a cell;
each claim overwrites the cell. -/
def procProd (g : Grammar) (first follow : SetMap) (A : String) (p : Production)
    (tbl : Table) : Table :=
  let fa := computeFirstOfString g first p
  let tbl1 := fa.foldl (fun tb t => if t = "ε" then tb else tblInsert A t p tb) tbl
  if setMem "ε" fa then (getSet follow A).foldl (fun tb t => tblInsert A t p tb) tbl1
  else tbl1

/-- Phase 5 of `main`: the LL(1) parsing table. -/
def buildTable (g : Grammar) (first follow : SetMap) : Table :=
  g.foldl (fun tbl e => e.2.foldl (fun tb p => procProd g first follow e.1 p tb) tbl) []

/-! The composed pipeline of `main`. -/

/-- Grammar after Phase 1 (left factoring). -/
def factoredOf (raw : Grammar) : Grammar := leftFactorPhase raw

/-- Grammar after Phase 2 (left-recursion removal): the final grammar. -/
def finalOf (raw : Grammar) : Grammar := leftRecursionPhase (factoredOf raw)

/-- FIRST sets of the final grammar (Phase 3). -/
def firstOf (raw : Grammar) : SetMap := firstSet (finalOf raw)

/-- FOLLOW sets of the final grammar (Phase 4). -/
def followOf (raw : Grammar) (startSymbol : String) : SetMap :=
  computeFollowSets (finalOf raw) (firstOf raw) startSymbol

/-- Parsing table of the final grammar (Phase 5). -/
def tableOf (raw : Grammar) (startSymbol : String) : Table :=
  buildTable (finalOf raw) (firstOf raw) (followOf raw startSymbol)

/-! Order theory of `strLt`: a strict linear order on strings. -/

theorem chLt_nil_false : ∀ l : List Char, chLt l [] = false := by
  intro l; cases l <;> rfl

theorem chLt_irrefl : ∀ l : List Char, chLt l l = false := by
  intro l
  induction l with
  | nil => rfl
  | cons a as ih => simp [chLt, ih]

theorem chLt_asymm : ∀ l1 l2 : List Char, chLt l1 l2 = true → chLt l2 l1 = false := by
  intro l1
  induction l1 with
  | nil => intro l2 _; exact chLt_nil_false l2
  | cons a as ih =>
    intro l2 h
    cases l2 with
    | nil => simp [chLt_nil_false] at h
    | cons b bs =>
      by_cases hab : a.toNat < b.toNat
      · simp [chLt, hab, Nat.lt_asymm hab]
      · by_cases hba : b.toNat < a.toNat
        · simp [chLt, hab, hba] at h
        · simp [chLt, hab, hba] at h ⊢
          exact ih bs h

theorem chLt_trans : ∀ l1 l2 l3 : List Char,
    chLt l1 l2 = true → chLt l2 l3 = true → chLt l1 l3 = true := by
  intro l1
  induction l1 with
  | nil =>
    intro l2 l3 _ h2
    cases l3 with
    | nil => simp [chLt_nil_false] at h2
    | cons c cs => rfl
  | cons a as ih =>
    intro l2 l3 h1 h2
    cases l2 with
    | nil => simp [chLt_nil_false] at h1
    | cons b bs =>
      cases l3 with
      | nil => simp [chLt_nil_false] at h2
      | cons c cs =>
        by_cases hab : a.toNat < b.toNat <;> by_cases hbc : b.toNat < c.toNat
        · simp [chLt, (show a.toNat < c.toNat by omega)]
        · by_cases hcb : c.toNat < b.toNat
          · simp [chLt, hbc, hcb] at h2
          · simp [chLt, (show a.toNat < c.toNat by omega)]
        · by_cases hba : b.toNat < a.toNat
          · simp [chLt, hab, hba] at h1
          · simp [chLt, hab, hba] at h1
            simp [chLt, (show a.toNat < c.toNat by omega)]
        · by_cases hba : b.toNat < a.toNat
          · simp [chLt, hab, hba] at h1
          · by_cases hcb : c.toNat < b.toNat
            · simp [chLt, hbc, hcb] at h2
            · simp [chLt, hab, hba] at h1
              simp [chLt, hbc, hcb] at h2
              simp [chLt, (show ¬ a.toNat < c.toNat by omega),
                (show ¬ c.toNat < a.toNat by omega)]
              exact ih bs cs h1 h2

theorem chLt_eq_of : ∀ l1 l2 : List Char,
    chLt l1 l2 = false → chLt l2 l1 = false → l1 = l2 := by
  intro l1
  induction l1 with
  | nil =>
    intro l2 h1 _
    cases l2 with
    | nil => rfl
    | cons b bs => simp [chLt] at h1
  | cons a as ih =>
    intro l2 h1 h2
    cases l2 with
    | nil => simp [chLt] at h2
    | cons b bs =>
      by_cases hab : a.toNat < b.toNat
      · simp [chLt, hab] at h1
      · by_cases hba : b.toNat < a.toNat
        · simp [chLt, hba] at h2
        · simp [chLt, hab, hba] at h1 h2
          have hv : a = b := Char.ext (UInt32.toNat.inj (show a.toNat = b.toNat by omega))
          rw [hv, ih bs h1 h2]

theorem strLt_irrefl (a : String) : strLt a a = false := chLt_irrefl a.data

theorem strLt_asymm {a b : String} (h : strLt a b = true) : strLt b a = false :=
  chLt_asymm a.data b.data h

theorem strLt_trans {a b c : String} (h1 : strLt a b = true) (h2 : strLt b c = true) :
    strLt a c = true :=
  chLt_trans a.data b.data c.data h1 h2

theorem strLt_eq_of {a b : String} (h1 : strLt a b = false) (h2 : strLt b a = false) :
    a = b := by
  have : a.data = b.data := chLt_eq_of a.data b.data h1 h2
  cases a; cases b; simp_all

theorem strLt_cases (a b : String) : strLt a b = true ∨ strLt b a = true ∨ a = b := by
  by_cases h1 : strLt a b = true
  · exact Or.inl h1
  · by_cases h2 : strLt b a = true
    · exact Or.inr (Or.inl h2)
    · exact Or.inr (Or.inr (strLt_eq_of (by simpa using h1) (by simpa using h2)))

theorem strLt_of_ne_left {a b : String} (h : strLt a b = true) : a ≠ b := by
  intro he; rw [he, strLt_irrefl] at h; exact Bool.false_ne_true h

/-! Lemmas about the sorted association-list maps and sets. -/

theorem mapLookup_mapInsert_self {α : Type} (k : String) (v : α) :
    ∀ m : List (String × α), mapLookup k (mapInsert k v m) = some v := by
  intro m
  induction m with
  | nil => simp [mapInsert, mapLookup, strLt_irrefl]
  | cons e r ih =>
    obtain ⟨k1, v1⟩ := e
    by_cases h1 : strLt k k1 = true
    · simp [mapInsert, h1, mapLookup, strLt_irrefl]
    · rw [Bool.not_eq_true] at h1
      by_cases h2 : strLt k1 k = true
      · simp [mapInsert, h1, h2, mapLookup, strLt_asymm h2, ih]
      · rw [Bool.not_eq_true] at h2
        simp [mapInsert, h1, h2, mapLookup, strLt_irrefl]

theorem mapLookup_mapInsert_ne {α : Type} {k k2 : String} (h : k ≠ k2) (v : α) :
    ∀ m : List (String × α), mapLookup k (mapInsert k2 v m) = mapLookup k m := by
  intro m
  rcases strLt_cases k k2 with hlt | hgt | heq
  · induction m with
    | nil => simp [mapInsert, mapLookup, hlt, strLt_asymm hlt]
    | cons e r ih =>
      obtain ⟨k1, v1⟩ := e
      by_cases h1 : strLt k2 k1 = true
      · simp [mapInsert, h1, mapLookup, hlt, strLt_trans hlt h1]
      · rw [Bool.not_eq_true] at h1
        by_cases h2 : strLt k1 k2 = true
        · simp [mapInsert, h1, h2, mapLookup, ih]
        · rw [Bool.not_eq_true] at h2
          have hk : k1 = k2 := strLt_eq_of h2 h1
          subst hk
          simp [mapInsert, strLt_irrefl, mapLookup, hlt]
  · induction m with
    | nil => simp [mapInsert, mapLookup, hgt, strLt_asymm hgt]
    | cons e r ih =>
      obtain ⟨k1, v1⟩ := e
      by_cases h1 : strLt k2 k1 = true
      · simp [mapInsert, h1, mapLookup, hgt, strLt_asymm hgt]
      · rw [Bool.not_eq_true] at h1
        by_cases h2 : strLt k1 k2 = true
        · simp [mapInsert, h1, h2, mapLookup, ih]
        · rw [Bool.not_eq_true] at h2
          have hk : k1 = k2 := strLt_eq_of h2 h1
          subst hk
          simp [mapInsert, strLt_irrefl, mapLookup, hgt, strLt_asymm hgt]
  · exact absurd heq h

theorem mem_mapInsert {α : Type} {k : String} {v : α} :
    ∀ {m : List (String × α)} {e : String × α},
      e ∈ mapInsert k v m → e = (k, v) ∨ e ∈ m := by
  intro m
  induction m with
  | nil => intro e he; simp [mapInsert] at he; exact Or.inl he
  | cons e1 r ih =>
    obtain ⟨k1, v1⟩ := e1
    intro e he
    by_cases h1 : strLt k k1 = true
    · simp [mapInsert, h1] at he
      rcases he with h | h | h
      · exact Or.inl h
      · exact Or.inr (by simp [h])
      · exact Or.inr (by simp [h])
    · rw [Bool.not_eq_true] at h1
      by_cases h2 : strLt k1 k = true
      · simp only [mapInsert, h1, h2] at he
        simp only [Bool.false_eq_true, if_false, if_true, List.mem_cons] at he
        rcases he with h | h
        · exact Or.inr (by simp [h])
        · rcases ih h with h3 | h3
          · exact Or.inl h3
          · exact Or.inr (List.mem_cons_of_mem _ h3)
      · rw [Bool.not_eq_true] at h2
        simp only [mapInsert, h1, h2] at he
        simp only [Bool.false_eq_true, if_false, List.mem_cons] at he
        rcases he with h | h
        · exact Or.inl h
        · exact Or.inr (List.mem_cons_of_mem _ h)

theorem mem_of_mapLookup {α : Type} {k : String} {v : α} :
    ∀ {m : List (String × α)}, mapLookup k m = some v → (k, v) ∈ m := by
  intro m
  induction m with
  | nil => intro h; simp [mapLookup] at h
  | cons e r ih =>
    obtain ⟨k1, v1⟩ := e
    intro h
    by_cases h1 : strLt k k1 = true
    · simp [mapLookup, h1] at h
    · rw [Bool.not_eq_true] at h1
      by_cases h2 : strLt k1 k = true
      · simp only [mapLookup, h1, h2] at h
        simp only [Bool.false_eq_true, if_false, if_true] at h
        exact List.mem_cons_of_mem _ (ih h)
      · rw [Bool.not_eq_true] at h2
        have hk : k = k1 := strLt_eq_of h1 h2
        simp only [mapLookup, h1, h2] at h
        simp only [Bool.false_eq_true, if_false, Option.some.injEq] at h
        simp [hk, h]

theorem length_mapInsert_le {α : Type} (k : String) (v : α) :
    ∀ m : List (String × α), (mapInsert k v m).length ≤ m.length + 1 := by
  intro m
  induction m with
  | nil => simp [mapInsert]
  | cons e r ih =>
    obtain ⟨k1, v1⟩ := e
    by_cases h1 : strLt k k1 = true
    · simp [mapInsert, h1]
    · rw [Bool.not_eq_true] at h1
      by_cases h2 : strLt k1 k = true
      · simp only [mapInsert, h1, h2]
        simp only [Bool.false_eq_true, if_false, if_true, List.length_cons]
        omega
      · rw [Bool.not_eq_true] at h2
        simp [mapInsert, h1, h2]

/-- Sortedness of a string list (strictly ascending in `strLt`). -/
def SortedS (s : List String) : Prop := s.Pairwise (fun a b => strLt a b = true)

/-- Sortedness of an association list's keys: the `std::map` invariant. -/
def SortedK {α : Type} (m : List (String × α)) : Prop := SortedS (keysOf m)

theorem mem_setInsert {x y : String} :
    ∀ {s : List String}, y ∈ setInsert x s ↔ y = x ∨ y ∈ s := by
  intro s
  induction s with
  | nil => simp [setInsert]
  | cons z r ih =>
    by_cases h1 : strLt x z = true
    · simp [setInsert, h1]
    · rw [Bool.not_eq_true] at h1
      by_cases h2 : strLt z x = true
      · simp only [setInsert, h1, h2]
        simp only [Bool.false_eq_true, if_false, if_true, List.mem_cons, ih]
        tauto
      · rw [Bool.not_eq_true] at h2
        have hk : z = x := strLt_eq_of h2 h1
        subst hk
        simp only [setInsert, h1, h2]
        simp only [Bool.false_eq_true, if_false, List.mem_cons]
        tauto

theorem setMem_iff {x : String} : ∀ {s : List String}, setMem x s = true ↔ x ∈ s := by
  intro s
  induction s with
  | nil => simp [setMem]
  | cons y r ih =>
    by_cases h : x = y
    · simp [setMem, h]
    · simp [setMem, h, ih]

theorem sublist_setInsert (x : String) : ∀ s : List String, List.Sublist s (setInsert x s) := by
  intro s
  induction s with
  | nil => exact List.nil_sublist _
  | cons y r ih =>
    by_cases h1 : strLt x y = true
    · simp only [setInsert, h1, if_true]
      exact List.Sublist.cons x (List.Sublist.refl (y :: r))
    · rw [Bool.not_eq_true] at h1
      by_cases h2 : strLt y x = true
      · simp only [setInsert, h1, h2]
        simp only [Bool.false_eq_true, if_false, if_true]
        exact List.Sublist.cons₂ y ih
      · rw [Bool.not_eq_true] at h2
        simp [setInsert, h1, h2]

theorem setMem_setInsert_self (x : String) (s : List String) :
    setMem x (setInsert x s) = true := by
  rw [setMem_iff, mem_setInsert]; exact Or.inl rfl

theorem sortedS_setInsert {x : String} : ∀ {s : List String}, SortedS s → SortedS (setInsert x s) := by
  intro s
  induction s with
  | nil => intro _; simp [setInsert, SortedS]
  | cons y r ih =>
    intro hs
    have hy := (List.pairwise_cons.mp hs).1
    have hr := (List.pairwise_cons.mp hs).2
    by_cases h1 : strLt x y = true
    · simp only [setInsert, h1, if_true]
      refine List.pairwise_cons.mpr ⟨?_, hs⟩
      intro z hz
      rcases List.mem_cons.mp hz with h | h
      · rw [h]; exact h1
      · exact strLt_trans h1 (hy z h)
    · rw [Bool.not_eq_true] at h1
      by_cases h2 : strLt y x = true
      · simp only [setInsert, h1, h2]
        simp only [Bool.false_eq_true, if_false, if_true]
        refine List.pairwise_cons.mpr ⟨?_, ih hr⟩
        intro z hz
        rcases mem_setInsert.mp hz with h | h
        · rw [h]; exact h2
        · exact hy z h
      · rw [Bool.not_eq_true] at h2
        simpa [setInsert, h1, h2] using hs

theorem keysOf_mapInsert {α : Type} (k : String) (v : α) :
    ∀ m : List (String × α), keysOf (mapInsert k v m) = setInsert k (keysOf m) := by
  intro m
  induction m with
  | nil => rfl
  | cons e r ih =>
    obtain ⟨k1, v1⟩ := e
    by_cases h1 : strLt k k1 = true
    · simp [mapInsert, keysOf, setInsert, h1]
    · rw [Bool.not_eq_true] at h1
      by_cases h2 : strLt k1 k = true
      · simp only [mapInsert, setInsert, h1, h2]
        simp only [Bool.false_eq_true, if_false, if_true]
        simpa [keysOf] using ih
      · rw [Bool.not_eq_true] at h2
        have hk : k = k1 := strLt_eq_of h1 h2
        subst hk
        simp [mapInsert, setInsert, keysOf, strLt_irrefl]

theorem sortedK_mapInsert {α : Type} {k : String} {v : α} {m : List (String × α)}
    (h : SortedK m) : SortedK (mapInsert k v m) := by
  unfold SortedK
  rw [keysOf_mapInsert]
  exact sortedS_setInsert h

theorem mem_of_keysOf {α : Type} {k : String} {m : List (String × α)}
    (h : k ∈ keysOf m) : ∃ v, (k, v) ∈ m := by
  obtain ⟨e, he, hk⟩ := List.mem_map.mp h
  exact ⟨e.2, by rwa [show (k, e.2) = e from by rw [← hk]]⟩

theorem keysOf_of_mem {α : Type} {k : String} {v : α} {m : List (String × α)}
    (h : (k, v) ∈ m) : k ∈ keysOf m :=
  List.mem_map.mpr ⟨(k, v), h, rfl⟩

theorem mapLookup_of_mem_sorted {α : Type} :
    ∀ {m : List (String × α)}, SortedK m → ∀ {k : String} {v : α}, (k, v) ∈ m →
      mapLookup k m = some v := by
  intro m
  induction m with
  | nil => intro _ k v h; simp at h
  | cons e r ih =>
    obtain ⟨k1, v1⟩ := e
    intro hs k v hm
    rcases List.mem_cons.mp hm with h | h
    · have hk : k = k1 := (Prod.ext_iff.mp h).1
      have hv : v = v1 := (Prod.ext_iff.mp h).2
      subst hk; subst hv
      simp [mapLookup, strLt_irrefl]
    · have hs1 : SortedS (k1 :: keysOf r) := hs
      have hlt : strLt k1 k = true :=
        (List.pairwise_cons.mp hs1).1 k (keysOf_of_mem h)
      have htail : SortedK r := (List.pairwise_cons.mp hs1).2
      simp [mapLookup, strLt_asymm hlt, hlt, ih htail h]

theorem sublist_of_sorted_sub :
    ∀ (t s : List String), SortedS s → SortedS t → (∀ x ∈ s, x ∈ t) →
      List.Sublist s t := by
  intro t
  induction t with
  | nil =>
    intro s _ _ hsub
    cases s with
    | nil => exact List.Sublist.refl []
    | cons a as => exact absurd (hsub a (List.mem_cons_self a as)) (List.not_mem_nil a)
  | cons b bs ih =>
    intro s hs hts hsub
    cases s with
    | nil => exact List.nil_sublist _
    | cons a as =>
      have ha := (List.pairwise_cons.mp hs).1
      have has := (List.pairwise_cons.mp hs).2
      have hb := (List.pairwise_cons.mp hts).1
      have hbs := (List.pairwise_cons.mp hts).2
      by_cases hab : a = b
      · subst hab
        refine List.Sublist.cons₂ a (ih as has hbs ?_)
        intro x hx
        have hax : strLt a x = true := ha x hx
        rcases List.mem_cons.mp (hsub x (List.mem_cons_of_mem a hx)) with h | h
        · exact absurd (h ▸ hax) (by simp [strLt_irrefl])
        · exact h
      · have hmem : a ∈ bs := by
          rcases List.mem_cons.mp (hsub a (List.mem_cons_self a as)) with h | h
          · exact absurd h hab
          · exact h
        have hba : strLt b a = true := hb a hmem
        refine List.Sublist.cons b (ih (a :: as) hs hbs ?_)
        intro x hx
        rcases List.mem_cons.mp (hsub x hx) with h | h
        · subst h
          rcases List.mem_cons.mp hx with h2 | h2
          · exact absurd (h2 ▸ hba) (by simp [strLt_irrefl])
          · have := strLt_trans hba (ha x h2)
            exact absurd this (by simp [strLt_irrefl])
        · exact h

/-! Growth relation between two set maps with the same key spine: every
set grew into a superset. -/

/-- A set map extends another when they have the same keys in the same
order and each value is a sublist (hence subset) of its counterpart. -/
def Ext (m m2 : SetMap) : Prop :=
  List.Forall₂ (fun e e2 => e.1 = e2.1 ∧ List.Sublist e.2 e2.2) m m2

theorem ext_refl (m : SetMap) : Ext m m := by
  induction m with
  | nil => exact List.Forall₂.nil
  | cons e r ih => exact List.Forall₂.cons ⟨rfl, List.Sublist.refl _⟩ ih

theorem ext_trans {m1 m2 m3 : SetMap} (h1 : Ext m1 m2) (h2 : Ext m2 m3) : Ext m1 m3 := by
  induction h1 generalizing m3 with
  | nil => cases h2; exact List.Forall₂.nil
  | cons hab h ih =>
    cases h2 with
    | cons hbc h3 => exact List.Forall₂.cons ⟨hab.1.trans hbc.1, hab.2.trans hbc.2⟩ (ih h3)

theorem ext_keysOf {m m2 : SetMap} (h : Ext m m2) : keysOf m = keysOf m2 := by
  induction h with
  | nil => rfl
  | cons hab _ ih => simp [keysOf] at ih ⊢; exact ⟨hab.1, ih⟩

theorem ext_lookup_some {m m2 : SetMap} (h : Ext m m2) :
    ∀ {k : String} {v : SymSet}, mapLookup k m = some v →
      ∃ v2, mapLookup k m2 = some v2 ∧ List.Sublist v v2 := by
  induction h with
  | nil => intro k v hv; simp [mapLookup] at hv
  | cons hab hrest ih =>
    intro k v hv
    rename_i a b l1 l2
    obtain ⟨hk, hsub⟩ := hab
    by_cases h1 : strLt k a.1 = true
    · simp [mapLookup, h1] at hv
    · rw [Bool.not_eq_true] at h1
      by_cases h2 : strLt a.1 k = true
      · simp only [mapLookup, h1, h2, Bool.false_eq_true, if_false, if_true] at hv
        obtain ⟨v2, hv2, hs2⟩ := ih hv
        exact ⟨v2, by simpa [mapLookup, ← hk, h1, h2] using hv2, hs2⟩
      · rw [Bool.not_eq_true] at h2
        simp only [mapLookup, h1, h2, Bool.false_eq_true, if_false,
          Option.some.injEq] at hv
        exact ⟨b.2, by simp [mapLookup, ← hk, h1, h2], hv ▸ hsub⟩

theorem ext_getSet {m m2 : SetMap} (h : Ext m m2) (k : String) :
    List.Sublist (getSet m k) (getSet m2 k) := by
  cases hv : mapLookup k m with
  | none => simp [getSet, hv]
  | some v =>
    obtain ⟨v2, hv2, hs⟩ := ext_lookup_some h hv
    simpa [getSet, hv, hv2] using hs

theorem ext_setMem {m m2 : SetMap} (h : Ext m m2) {k x : String}
    (hx : setMem x (getSet m k) = true) : setMem x (getSet m2 k) = true := by
  rw [setMem_iff] at hx ⊢
  exact (ext_getSet h k).subset hx

theorem ext_mapInsert {m : SetMap} (hs : SortedK m) :
    ∀ {k : String} {v w : SymSet}, (k, v) ∈ m → List.Sublist v w →
      Ext m (mapInsert k w m) := by
  induction m with
  | nil => intro k v w hmem _; simp at hmem
  | cons e r ih =>
    obtain ⟨k1, v1⟩ := e
    intro k v w hmem hsub
    have hs1 : SortedS (k1 :: keysOf r) := hs
    have htail : SortedK r := (List.pairwise_cons.mp hs1).2
    rcases List.mem_cons.mp hmem with h | h
    · have hk : k = k1 := (Prod.ext_iff.mp h).1
      have hv : v = v1 := (Prod.ext_iff.mp h).2
      subst hk; subst hv
      simp only [mapInsert, strLt_irrefl, Bool.false_eq_true, if_false]
      exact List.Forall₂.cons ⟨rfl, hsub⟩ (ext_refl r)
    · have hlt : strLt k1 k = true :=
        (List.pairwise_cons.mp hs1).1 k (keysOf_of_mem h)
      simp only [mapInsert, strLt_asymm hlt, hlt, Bool.false_eq_true, if_false, if_true]
      exact List.Forall₂.cons ⟨rfl, List.Sublist.refl _⟩ (ih htail h hsub)

/-! Invariant carried through the fixed-point passes, and the measure that
forces termination. -/

/-- Invariant of the solver maps: sorted keys equal to the fixed spine `K`,
every value a sorted set whose members lie in the finite `univ`. -/
def InvS (K : List String) (univ : SymSet) (m : SetMap) : Prop :=
  SortedK m ∧ keysOf m = K ∧ ∀ e ∈ m, SortedS e.2 ∧ ∀ x ∈ e.2, x ∈ univ

theorem addSym_ok {K : List String} {univ : SymSet} {m : SetMap}
    (hI : InvS K univ m) {k x : String} (hk : k ∈ K) (hx : x ∈ univ) :
    InvS K univ (addSym k x m) ∧ Ext m (addSym k x m) := by
  obtain ⟨hsort, hkeys, hvals⟩ := hI
  obtain ⟨v, hv⟩ := mem_of_keysOf (k := k) (by rw [hkeys]; exact hk)
  have hget : getSet m k = v := by simp [getSet, mapLookup_of_mem_sorted hsort hv]
  have hext : Ext m (addSym k x m) := by
    unfold addSym
    rw [hget]
    exact ext_mapInsert hsort hv (sublist_setInsert x v)
  refine ⟨⟨?_, ?_, ?_⟩, hext⟩
  · unfold SortedK
    rw [← ext_keysOf hext]
    exact hsort
  · rw [← ext_keysOf hext, hkeys]
  · intro e he
    rcases mem_mapInsert he with h | h
    · subst h
      constructor
      · exact sortedS_setInsert (hget ▸ (hvals (k, v) hv).1)
      · intro y hy
        rcases mem_setInsert.mp hy with h2 | h2
        · exact h2 ▸ hx
        · exact (hvals (k, v) hv).2 y (hget ▸ h2)
    · exact hvals e h

theorem foldl_inv_ext {β : Type} {f : SetMap → β → SetMap} {I : SetMap → Prop} :
    ∀ {l : List β}, (∀ b ∈ l, ∀ m, I m → I (f m b) ∧ Ext m (f m b)) →
      ∀ m, I m → I (l.foldl f m) ∧ Ext m (l.foldl f m) := by
  intro l
  induction l with
  | nil => intro _ m hm; exact ⟨hm, ext_refl m⟩
  | cons b bs ih =>
    intro h m hm
    obtain ⟨h1, h2⟩ := h b (List.mem_cons_self b bs) m hm
    obtain ⟨h3, h4⟩ := ih (fun b2 hb2 => h b2 (List.mem_cons_of_mem b hb2)) (f m b) h1
    exact ⟨h3, ext_trans h2 h4⟩

theorem addSymsNoEps_ok {K : List String} {univ : SymSet} {m : SetMap}
    (hI : InvS K univ m) {k : String} {xs : List String} (hk : k ∈ K)
    (hxs : ∀ x ∈ xs, x ≠ "ε" → x ∈ univ) :
    InvS K univ (addSymsNoEps k xs m) ∧ Ext m (addSymsNoEps k xs m) := by
  refine foldl_inv_ext (fun x hx m1 hm1 => ?_) m hI
  by_cases hxe : x = "ε"
  · simp only [hxe, if_true]
    exact ⟨hm1, ext_refl m1⟩
  · simp only [hxe, Bool.false_eq_true, if_false]
    exact addSym_ok hm1 hk (hxs x hx hxe)

theorem addSymsAll_ok {K : List String} {univ : SymSet} {m : SetMap}
    (hI : InvS K univ m) {k : String} {xs : List String} (hk : k ∈ K)
    (hxs : ∀ x ∈ xs, x ∈ univ) :
    InvS K univ (addSymsAll k xs m) ∧ Ext m (addSymsAll k xs m) := by
  refine foldl_inv_ext (fun x hx m1 hm1 => ?_) m hI
  exact addSym_ok hm1 hk (hxs x hx)

/-- Total number of stored symbols: the measure the passes strictly grow
until the fixed point. -/
def measOf (m : SetMap) : Nat := (m.map (fun e => e.2.length)).sum

theorem ext_measOf_le {m m2 : SetMap} (h : Ext m m2) : measOf m ≤ measOf m2 := by
  induction h with
  | nil => exact Nat.le_refl 0
  | cons hab _ ih =>
    simp only [measOf, List.map_cons, List.sum_cons] at ih ⊢
    have := hab.2.length_le
    omega

theorem measOf_cons (e : String × SymSet) (r : SetMap) :
    measOf (e :: r) = e.2.length + measOf r := by
  simp [measOf]

theorem ext_eq_of_measOf {m m2 : SetMap} (h : Ext m m2) (hm : measOf m = measOf m2) :
    m = m2 := by
  induction h with
  | nil => rfl
  | cons hab hrest ih =>
    rename_i a b l1 l2
    rw [measOf_cons, measOf_cons] at hm
    have h1 := hab.2.length_le
    have h2 : measOf l1 ≤ measOf l2 := ext_measOf_le hrest
    have hv : a.2 = b.2 := hab.2.eq_of_length (by omega)
    have hl : l1 = l2 := ih (by omega)
    rw [hl, show a = b from Prod.ext_iff.mpr ⟨hab.1, hv⟩]

theorem measOf_le_bound {univ : SymSet} (hu : SortedS univ) :
    ∀ {m : SetMap}, (∀ e ∈ m, SortedS e.2 ∧ ∀ x ∈ e.2, x ∈ univ) →
      measOf m ≤ m.length * univ.length := by
  intro m
  induction m with
  | nil => intro _; simp [measOf]
  | cons e r ih =>
    intro h
    have he := h e (List.mem_cons_self e r)
    have hlen : e.2.length ≤ univ.length :=
      (sublist_of_sorted_sub univ e.2 he.1 hu he.2).length_le
    have hr := ih (fun e2 he2 => h e2 (List.mem_cons_of_mem e he2))
    simp only [measOf, List.map_cons, List.sum_cons, List.length_cons] at hr ⊢
    have : (r.length + 1) * univ.length = r.length * univ.length + univ.length :=
      Nat.succ_mul r.length univ.length
    omega

/-! Generic facts about `iterateFix`: a monotone, bounded step function
reaches its fixed point within the fuel. -/

theorem iterateFix_pres {α : Type} [DecidableEq α] (f : α → α) (Q : α → Prop)
    (hQ : ∀ m, Q m → Q (f m)) : ∀ (n : Nat) (m : α), Q m → Q (iterateFix f n m) := by
  intro n
  induction n with
  | zero => intro m hm; exact hm
  | succ n ih =>
    intro m hm
    simp only [iterateFix]
    by_cases h : f m = m
    · simp only [h, if_true]; exact hm
    · simp only [h, if_false]; exact ih (f m) (hQ m hm)

theorem iterateFix_fixpoint {α : Type} [DecidableEq α] (f : α → α) (P : α → Prop)
    (meas : α → Nat) (B : Nat) (hP : ∀ m, P m → P (f m)) (hB : ∀ m, P m → meas m ≤ B)
    (hgrow : ∀ m, P m → f m ≠ m → meas m < meas (f m)) :
    ∀ (fuel : Nat) (m : α), P m → B < fuel + meas m →
      f (iterateFix f fuel m) = iterateFix f fuel m := by
  intro fuel
  induction fuel with
  | zero =>
    intro m hm hf
    exact absurd (hB m hm) (by omega)
  | succ n ih =>
    intro m hm hf
    simp only [iterateFix]
    by_cases h : f m = m
    · simp only [h, if_true]
    · simp only [h, if_false]
      exact ih (f m) (hP m hm) (by have := hgrow m hm h; omega)

/-! Facts about the token universes and the initial maps. -/

theorem foldl_pres {α β : Type} {f : α → β → α} (Q : α → Prop) :
    ∀ (l : List β) (a : α), Q a → (∀ b ∈ l, ∀ x, Q x → Q (f x b)) → Q (l.foldl f a) := by
  intro l
  induction l with
  | nil => intro a ha _; exact ha
  | cons b bs ih =>
    intro a ha h
    exact ih (f a b) (h b (List.mem_cons_self b bs) a ha)
      (fun b2 hb2 => h b2 (List.mem_cons_of_mem b hb2))

theorem sortedS_insFold : ∀ (l : List String) {s : SymSet}, SortedS s →
    SortedS (insFold l s) := by
  intro l
  induction l with
  | nil => intro s hs; exact hs
  | cons y r ih => intro s hs; exact ih (sortedS_setInsert hs)

theorem mem_insFold_acc {x : String} : ∀ (l : List String) {s : SymSet}, x ∈ s →
    x ∈ insFold l s := by
  intro l
  induction l with
  | nil => intro s hs; exact hs
  | cons y r ih => intro s hs; exact ih (mem_setInsert.mpr (Or.inr hs))

theorem mem_insFold_mem {x : String} : ∀ {l : List String} (s : SymSet), x ∈ l →
    x ∈ insFold l s := by
  intro l
  induction l with
  | nil => intro s hs; simp at hs
  | cons y r ih =>
    intro s hs
    rcases List.mem_cons.mp hs with h | h
    · exact mem_insFold_acc r (mem_setInsert.mpr (Or.inl h))
    · exact ih (setInsert y s) h

theorem mem_tokensFold_acc {x : String} :
    ∀ (ps : List Production) {acc : SymSet}, x ∈ acc →
      x ∈ ps.foldl (fun a p => insFold p a) acc := by
  intro ps
  induction ps with
  | nil => intro acc h; exact h
  | cons p r ih => intro acc h; exact ih (mem_insFold_acc p h)

theorem mem_tokensFold_mem {x : String} {p : Production} :
    ∀ {ps : List Production} (acc : SymSet), p ∈ ps → x ∈ p →
      x ∈ ps.foldl (fun a q => insFold q a) acc := by
  intro ps
  induction ps with
  | nil => intro acc h _; simp at h
  | cons q r ih =>
    intro acc hp hx
    rcases List.mem_cons.mp hp with h | h
    · exact mem_tokensFold_acc r (h ▸ mem_insFold_mem acc hx)
    · exact ih (insFold q acc) h hx

theorem mem_allTokens_acc {x : String} :
    ∀ (g : Grammar) {acc : SymSet}, x ∈ acc →
      x ∈ g.foldl (fun acc e => e.2.foldl (fun a p => insFold p a) acc) acc := by
  intro g
  induction g with
  | nil => intro acc h; exact h
  | cons e r ih => intro acc h; exact ih (mem_tokensFold_acc e.2 h)

theorem mem_allTokens_go {A : String} {ps : List Production}
    {p : Production} {t : String} :
    ∀ {g : Grammar} (acc : SymSet), (A, ps) ∈ g → p ∈ ps → t ∈ p →
      t ∈ g.foldl (fun acc e => e.2.foldl (fun a q => insFold q a) acc) acc := by
  intro g
  induction g with
  | nil => intro acc hA _ _; simp at hA
  | cons e r ih =>
    intro acc hA hp ht
    rcases List.mem_cons.mp hA with h | h
    · have hpe : p ∈ e.2 := by rw [← h]; exact hp
      exact mem_allTokens_acc r (mem_tokensFold_mem acc hpe ht)
    · exact ih _ h hp ht

theorem mem_allTokens {g : Grammar} {A : String} {ps : List Production}
    {p : Production} {t : String} (hA : (A, ps) ∈ g) (hp : p ∈ ps) (ht : t ∈ p) :
    t ∈ allTokens g :=
  mem_allTokens_go [] hA hp ht

theorem sortedS_allTokens (g : Grammar) : SortedS (allTokens g) := by
  unfold allTokens
  refine foldl_pres SortedS g [] (by simp [SortedS]) (fun e _ x hx => ?_)
  exact foldl_pres SortedS e.2 x hx (fun p _ y hy => sortedS_insFold p hy)

theorem mem_setMapValues_acc {x : String} :
    ∀ (m : SetMap) {acc : SymSet}, x ∈ acc →
      x ∈ m.foldl (fun acc e => insFold e.2 acc) acc := by
  intro m
  induction m with
  | nil => intro acc h; exact h
  | cons e r ih => intro acc h; exact ih (mem_insFold_acc e.2 h)

theorem mem_setMapValues_go {k x : String} {v : SymSet} :
    ∀ {first : SetMap} (acc : SymSet), (k, v) ∈ first → x ∈ v →
      x ∈ first.foldl (fun acc e => insFold e.2 acc) acc := by
  intro first
  induction first with
  | nil => intro acc hkv _; simp at hkv
  | cons e r ih =>
    intro acc hkv hx
    rcases List.mem_cons.mp hkv with h | h
    · have hxe : x ∈ e.2 := by rw [← h]; exact hx
      exact mem_setMapValues_acc r (mem_insFold_mem acc hxe)
    · exact ih _ h hx

theorem mem_setMapValues {first : SetMap} {k x : String} {v : SymSet}
    (hkv : (k, v) ∈ first) (hx : x ∈ v) : x ∈ setMapValues first :=
  mem_setMapValues_go [] hkv hx

theorem sortedS_setMapValues (m : SetMap) : SortedS (setMapValues m) := by
  unfold setMapValues
  exact foldl_pres SortedS m [] (by simp [SortedS]) (fun e _ x hx => sortedS_insFold e.2 hx)

theorem sortedS_univFirst (g : Grammar) : SortedS (univFirst g) :=
  sortedS_setInsert (sortedS_allTokens g)

theorem sortedS_univFollow (g : Grammar) (first : SetMap) :
    SortedS (univFollow g first) :=
  sortedS_setInsert (sortedS_insFold (allTokens g) (sortedS_setMapValues first))

theorem eps_mem_univFirst (g : Grammar) : "ε" ∈ univFirst g :=
  mem_setInsert.mpr (Or.inl rfl)

theorem tok_mem_univFirst {g : Grammar} {t : String} (h : t ∈ allTokens g) :
    t ∈ univFirst g :=
  mem_setInsert.mpr (Or.inr h)

theorem dollar_mem_univFollow (g : Grammar) (first : SetMap) :
    "$" ∈ univFollow g first :=
  mem_setInsert.mpr (Or.inl rfl)

theorem tok_mem_univFollow {g : Grammar} (first : SetMap) {t : String}
    (h : t ∈ allTokens g) : t ∈ univFollow g first :=
  mem_setInsert.mpr (Or.inr (mem_insFold_mem _ h))

theorem firstval_mem_univFollow (g : Grammar) {first : SetMap} {k x : String}
    {v : SymSet} (hkv : (k, v) ∈ first) (hx : x ∈ v) : x ∈ univFollow g first :=
  mem_setInsert.mpr (Or.inr (mem_insFold_acc _ (mem_setMapValues hkv hx)))

theorem sortedK_initSets (g : Grammar) : SortedK (initSets g) := by
  unfold initSets
  refine foldl_pres SortedK g [] (by simp [SortedK, keysOf, SortedS]) ?_
  exact fun e _ x hx => sortedK_mapInsert hx

theorem initSets_values (g : Grammar) : ∀ e ∈ initSets g, e.2 = ([] : SymSet) := by
  unfold initSets
  refine foldl_pres (fun (m : SetMap) => ∀ e ∈ m, e.2 = ([] : SymSet)) g [] (by simp) ?_
  intro b _ m hm e he
  rcases mem_mapInsert he with h | h
  · rw [h]
  · exact hm e h

theorem length_foldl_mapInsert_le :
    ∀ (g : Grammar) (acc : SetMap),
      (g.foldl (fun acc e => mapInsert e.1 [] acc) acc).length ≤ acc.length + g.length := by
  intro g
  induction g with
  | nil => intro acc; simp
  | cons e r ih =>
    intro acc
    calc (r.foldl (fun acc e => mapInsert e.1 [] acc) (mapInsert e.1 [] acc)).length
        ≤ (mapInsert e.1 [] acc).length + r.length := ih (mapInsert e.1 [] acc)
      _ ≤ acc.length + 1 + r.length := by
          have := length_mapInsert_le e.1 ([] : SymSet) acc
          omega
      _ = acc.length + (r.length + 1) := by omega
      _ = acc.length + (e :: r).length := by simp

theorem length_initSets_le (g : Grammar) : (initSets g).length ≤ g.length := by
  have := length_foldl_mapInsert_le g []
  simpa [initSets] using this

theorem mem_keysOf_initSets {A : String} {ps : List Production} :
    ∀ {g : Grammar}, (A, ps) ∈ g → A ∈ keysOf (initSets g) := by
  have main : ∀ (g : Grammar) (acc : SetMap),
      ((A, ps) ∈ g ∨ A ∈ keysOf acc) →
      A ∈ keysOf (g.foldl (fun acc e => mapInsert e.1 [] acc) acc) := by
    intro g
    induction g with
    | nil =>
      intro acc h
      rcases h with h | h
      · simp at h
      · exact h
    | cons e r ih =>
      intro acc h
      rcases h with h | h
      · rcases List.mem_cons.mp h with h2 | h2
        · refine ih (mapInsert e.1 [] acc) (Or.inr ?_)
          rw [keysOf_mapInsert]
          exact mem_setInsert.mpr (Or.inl (by rw [← h2]))
        · exact ih (mapInsert e.1 [] acc) (Or.inl h2)
      · refine ih (mapInsert e.1 [] acc) (Or.inr ?_)
        rw [keysOf_mapInsert]
        exact mem_setInsert.mpr (Or.inr h)
  intro g h
  exact main g [] (Or.inl h)

theorem invS_getSet_univ {K : List String} {univ : SymSet} {m : SetMap}
    (hI : InvS K univ m) {k x : String} (hx : x ∈ getSet m k) : x ∈ univ := by
  cases hv : mapLookup k m with
  | none => rw [getSet, hv] at hx; simp at hx
  | some v =>
    rw [getSet, hv] at hx
    exact (hI.2.2 (k, v) (mem_of_mapLookup hv)).2 x hx

theorem getSet_initSets (g : Grammar) (k : String) : getSet (initSets g) k = [] := by
  cases hv : mapLookup k (initSets g) with
  | none => simp [getSet, hv]
  | some v =>
    have hvnil : v = [] := initSets_values g (k, v) (mem_of_mapLookup hv)
    simp [getSet, hv, hvnil]

/-! Invariant preservation through the FIRST pass, and its fixed point. -/

/-- Invariant instance for the FIRST solver. -/
def firstInvP (g : Grammar) (m : SetMap) : Prop :=
  InvS (keysOf (initSets g)) (univFirst g) m

theorem firstScan_ok {g : Grammar} {X : String} (hX : X ∈ keysOf (initSets g)) :
    ∀ (tokens : List String) (m : SetMap), firstInvP g m →
      (∀ t ∈ tokens, t ∈ allTokens g) →
      firstInvP g (firstScan g X tokens m) ∧ Ext m (firstScan g X tokens m) := by
  intro tokens
  induction tokens with
  | nil =>
    intro m hm _
    exact addSym_ok hm hX (eps_mem_univFirst g)
  | cons t rest ih =>
    intro m hm htok
    by_cases hte : t = "ε"
    · simp only [firstScan, if_pos hte]
      exact addSym_ok hm hX (eps_mem_univFirst g)
    · by_cases hnt : isNT g t = true
      · simp only [firstScan, if_neg hte, hnt, if_true]
        obtain ⟨h1, h2⟩ :=
          addSymsNoEps_ok hm hX (fun x hx _ => invS_getSet_univ hm hx)
        by_cases hmem :
            setMem "ε" (getSet (addSymsNoEps X (getSet m t) m) t) = true
        · simp only [hmem, if_true]
          obtain ⟨h3, h4⟩ :=
            ih _ h1 (fun t2 ht2 => htok t2 (List.mem_cons_of_mem t ht2))
          exact ⟨h3, ext_trans h2 h4⟩
        · rw [Bool.not_eq_true] at hmem
          simp only [hmem, Bool.false_eq_true, if_false]
          exact ⟨h1, h2⟩
      · rw [Bool.not_eq_true] at hnt
        simp only [firstScan, if_neg hte, hnt, Bool.false_eq_true, if_false]
        exact addSym_ok hm hX
          (tok_mem_univFirst (htok t (List.mem_cons_self t rest)))

theorem firstProd_ok {g : Grammar} {X : String} (hX : X ∈ keysOf (initSets g))
    (p : Production) (hp : ∀ t ∈ p, t ∈ allTokens g) (m : SetMap)
    (hm : firstInvP g m) :
    firstInvP g (firstProd g X p m) ∧ Ext m (firstProd g X p m) := by
  unfold firstProd
  by_cases hpe : p = []
  · rw [if_pos hpe]
    exact ⟨hm, ext_refl m⟩
  · rw [if_neg hpe]
    exact firstScan_ok hX p m hm hp

theorem firstPass_ok (g : Grammar) (m : SetMap) (hm : firstInvP g m) :
    firstInvP g (firstPass g m) ∧ Ext m (firstPass g m) := by
  unfold firstPass
  refine foldl_inv_ext (fun e he m1 hm1 => ?_) m hm
  obtain ⟨A, ps⟩ := e
  refine foldl_inv_ext (fun p hp m2 hm2 => ?_) m1 hm1
  exact firstProd_ok (mem_keysOf_initSets he) p
    (fun t ht => mem_allTokens he hp ht) m2 hm2

theorem firstInvP_initSets (g : Grammar) : firstInvP g (initSets g) := by
  refine ⟨sortedK_initSets g, rfl, fun e he => ?_⟩
  rw [initSets_values g e he]
  exact ⟨by simp [SortedS], by simp⟩

theorem firstMeas_bound (g : Grammar) (m : SetMap) (hm : firstInvP g m) :
    measOf m ≤ g.length * (univFirst g).length := by
  have h1 : measOf m ≤ m.length * (univFirst g).length :=
    measOf_le_bound (sortedS_univFirst g) hm.2.2
  have h2 : m.length = (initSets g).length := by
    have hk := congrArg List.length hm.2.1
    simpa [keysOf] using hk
  have h3 : (initSets g).length ≤ g.length := length_initSets_le g
  calc measOf m ≤ m.length * (univFirst g).length := h1
    _ ≤ g.length * (univFirst g).length := Nat.mul_le_mul_right _ (by omega)

theorem firstGrow (g : Grammar) (m : SetMap) (hm : firstInvP g m)
    (hne : firstPass g m ≠ m) : measOf m < measOf (firstPass g m) := by
  have hext := (firstPass_ok g m hm).2
  have hle := ext_measOf_le hext
  rcases Nat.eq_or_lt_of_le hle with he | hl
  · exact absurd (ext_eq_of_measOf hext he).symm hne
  · exact hl

theorem firstPass_fix (g : Grammar) : firstPass g (firstSet g) = firstSet g :=
  iterateFix_fixpoint (firstPass g) (firstInvP g) measOf
    (g.length * (univFirst g).length)
    (fun m hm => (firstPass_ok g m hm).1) (firstMeas_bound g) (firstGrow g)
    (firstFuel g) (initSets g) (firstInvP_initSets g)
    (by unfold firstFuel; omega)

theorem firstSet_inv (g : Grammar) : firstInvP g (firstSet g) :=
  iterateFix_pres (firstPass g) (firstInvP g)
    (fun m hm => (firstPass_ok g m hm).1) (firstFuel g) (initSets g)
    (firstInvP_initSets g)

/-! Invariant preservation through the FOLLOW pass, and its fixed point. -/

/-- Invariant instance for the FOLLOW solver. -/
def followInvP (g : Grammar) (first : SetMap) (startSymbol : String)
    (m : SetMap) : Prop :=
  InvS (keysOf (followInit g startSymbol)) (univFollow g first) m

theorem mem_keysOf_followInit {g : Grammar} {A : String} {ps : List Production}
    (startSymbol : String) (h : (A, ps) ∈ g) :
    A ∈ keysOf (followInit g startSymbol) := by
  unfold followInit addSym
  rw [keysOf_mapInsert]
  exact mem_setInsert.mpr (Or.inr (mem_keysOf_initSets h))

theorem isNT_mem {g : Grammar} {t : String} (h : isNT g t = true) :
    ∃ v, (t, v) ∈ g := by
  unfold isNT at h
  cases hv : mapLookup t g with
  | none => rw [hv] at h; simp at h
  | some v => exact ⟨v, mem_of_mapLookup hv⟩

theorem getSet_mem_univFollow (g : Grammar) {first : SetMap} {t x : String}
    (hx : x ∈ getSet first t) : x ∈ univFollow g first := by
  cases hv : mapLookup t first with
  | none => rw [getSet, hv] at hx; simp at hx
  | some v =>
    rw [getSet, hv] at hx
    exact firstval_mem_univFollow g (mem_of_mapLookup hv) hx

theorem followAfter_ok {g : Grammar} {first : SetMap} {startSymbol A B : String}
    (hB : B ∈ keysOf (followInit g startSymbol)) :
    ∀ (tokens : List String) (m : SetMap), followInvP g first startSymbol m →
      (∀ t ∈ tokens, t ∈ allTokens g) →
      followInvP g first startSymbol (followAfter g first A B tokens m) ∧
        Ext m (followAfter g first A B tokens m) := by
  intro tokens
  induction tokens with
  | nil =>
    intro m hm _
    exact addSymsAll_ok hm hB (fun x hx => invS_getSet_univ hm hx)
  | cons t rest ih =>
    intro m hm htok
    by_cases hnt : isNT g t = true
    · simp only [followAfter, hnt, if_true]
      obtain ⟨h1, h2⟩ :=
        addSymsNoEps_ok hm hB (fun x hx _ => getSet_mem_univFollow g hx)
      by_cases hmem : setMem "ε" (getSet first t) = true
      · simp only [hmem, if_true]
        obtain ⟨h3, h4⟩ :=
          ih _ h1 (fun t2 ht2 => htok t2 (List.mem_cons_of_mem t ht2))
        exact ⟨h3, ext_trans h2 h4⟩
      · rw [Bool.not_eq_true] at hmem
        simp only [hmem, Bool.false_eq_true, if_false]
        exact ⟨h1, h2⟩
    · rw [Bool.not_eq_true] at hnt
      simp only [followAfter, hnt, Bool.false_eq_true, if_false]
      exact addSym_ok hm hB
        (tok_mem_univFollow first (htok t (List.mem_cons_self t rest)))

theorem followPositions_ok {g : Grammar} {first : SetMap} {startSymbol A : String} :
    ∀ (tokens : List String) (m : SetMap), followInvP g first startSymbol m →
      (∀ t ∈ tokens, t ∈ allTokens g) →
      followInvP g first startSymbol (followPositions g first A tokens m) ∧
        Ext m (followPositions g first A tokens m) := by
  intro tokens
  induction tokens with
  | nil => intro m hm _; exact ⟨hm, ext_refl m⟩
  | cons t rest ih =>
    intro m hm htok
    simp only [followPositions]
    by_cases hnt : isNT g t = true
    · simp only [hnt, if_true]
      obtain ⟨v, hv⟩ := isNT_mem hnt
      obtain ⟨h1, h2⟩ := followAfter_ok (mem_keysOf_followInit startSymbol hv)
        rest m hm (fun t2 ht2 => htok t2 (List.mem_cons_of_mem t ht2))
      obtain ⟨h3, h4⟩ := ih _ h1 (fun t2 ht2 => htok t2 (List.mem_cons_of_mem t ht2))
      exact ⟨h3, ext_trans h2 h4⟩
    · rw [Bool.not_eq_true] at hnt
      simp only [hnt, Bool.false_eq_true, if_false]
      exact ih m hm (fun t2 ht2 => htok t2 (List.mem_cons_of_mem t ht2))

theorem followPass_ok (g : Grammar) (first : SetMap) (startSymbol : String)
    (m : SetMap) (hm : followInvP g first startSymbol m) :
    followInvP g first startSymbol (followPass g first m) ∧
      Ext m (followPass g first m) := by
  unfold followPass
  refine foldl_inv_ext (fun e he m1 hm1 => ?_) m hm
  obtain ⟨A, ps⟩ := e
  refine foldl_inv_ext (fun p hp m2 hm2 => ?_) m1 hm1
  exact followPositions_ok p m2 hm2 (fun t ht => mem_allTokens he hp ht)

theorem followInvP_init (g : Grammar) (first : SetMap) (startSymbol : String) :
    followInvP g first startSymbol (followInit g startSymbol) := by
  refine ⟨?_, rfl, ?_⟩
  · unfold followInit addSym
    exact sortedK_mapInsert (sortedK_initSets g)
  · intro e he
    unfold followInit addSym at he
    rcases mem_mapInsert he with h | h
    · rw [h]
      rw [getSet_initSets]
      constructor
      · exact sortedS_setInsert (by simp [SortedS])
      · intro x hx
        rcases mem_setInsert.mp hx with h2 | h2
        · exact h2 ▸ dollar_mem_univFollow g first
        · simp at h2
    · rw [initSets_values g e h]
      exact ⟨by simp [SortedS], by simp⟩

theorem followMeas_bound (g : Grammar) (first : SetMap) (startSymbol : String)
    (m : SetMap) (hm : followInvP g first startSymbol m) :
    measOf m ≤ (g.length + 1) * (univFollow g first).length := by
  have h1 : measOf m ≤ m.length * (univFollow g first).length :=
    measOf_le_bound (sortedS_univFollow g first) hm.2.2
  have h2 : m.length = (followInit g startSymbol).length := by
    have hk := congrArg List.length hm.2.1
    simpa [keysOf] using hk
  have h3 : (followInit g startSymbol).length ≤ (initSets g).length + 1 := by
    unfold followInit addSym
    exact length_mapInsert_le _ _ _
  have h4 : (initSets g).length ≤ g.length := length_initSets_le g
  calc measOf m ≤ m.length * (univFollow g first).length := h1
    _ ≤ (g.length + 1) * (univFollow g first).length :=
        Nat.mul_le_mul_right _ (by omega)

theorem followGrow (g : Grammar) (first : SetMap) (startSymbol : String)
    (m : SetMap) (hm : followInvP g first startSymbol m)
    (hne : followPass g first m ≠ m) : measOf m < measOf (followPass g first m) := by
  have hext := (followPass_ok g first startSymbol m hm).2
  have hle := ext_measOf_le hext
  rcases Nat.eq_or_lt_of_le hle with he | hl
  · exact absurd (ext_eq_of_measOf hext he).symm hne
  · exact hl

theorem followPass_fix (g : Grammar) (first : SetMap) (startSymbol : String) :
    followPass g first (computeFollowSets g first startSymbol) =
      computeFollowSets g first startSymbol :=
  iterateFix_fixpoint (followPass g first) (followInvP g first startSymbol) measOf
    ((g.length + 1) * (univFollow g first).length)
    (fun m hm => (followPass_ok g first startSymbol m hm).1)
    (followMeas_bound g first startSymbol) (followGrow g first startSymbol)
    (followFuel g first) (followInit g startSymbol)
    (followInvP_init g first startSymbol)
    (by unfold followFuel; omega)

theorem followSets_inv (g : Grammar) (first : SetMap) (startSymbol : String) :
    followInvP g first startSymbol (computeFollowSets g first startSymbol) :=
  iterateFix_pres (followPass g first) (followInvP g first startSymbol)
    (fun m hm => (followPass_ok g first startSymbol m hm).1)
    (followFuel g first) (followInit g startSymbol)
    (followInvP_init g first startSymbol)

/-! Fresh names are strictly greater than the original name in `strLt`,
hence distinct from it and from every earlier key. -/

theorem chLt_append {c : Char} {cs : List Char} :
    ∀ l : List Char, chLt l (l ++ c :: cs) = true := by
  intro l
  induction l with
  | nil => rfl
  | cons a as ih => simp [chLt, ih]

theorem strLt_append_ne {s t : String} (ht : t.data ≠ []) : strLt s (s ++ t) = true := by
  unfold strLt
  rw [String.data_append]
  cases hd : t.data with
  | nil => exact absurd hd ht
  | cons c cs => exact chLt_append s.data

theorem apostrophe_data : ("'" : String).data = [Char.ofNat 39] := by decide

theorem strLt_self_apo (s : String) : strLt s (s ++ "'") = true :=
  strLt_append_ne (by simp [apostrophe_data])

theorem ne_self_apo (s : String) : s ≠ s ++ "'" :=
  strLt_of_ne_left (strLt_self_apo s)

theorem factorName_ne_self (nt : String) (c : Nat) : nt ≠ factorName nt c := by
  unfold factorName
  by_cases h : c > 1
  · rw [if_pos h, String.append_assoc]
    refine strLt_of_ne_left (strLt_append_ne ?_)
    rw [String.data_append, apostrophe_data]
    simp
  · rw [if_neg h]
    exact ne_self_apo nt

/-! Sortedness of every grammar the pipeline builds (the `std::map`
invariant, maintained because every write is a `mapInsert`). -/

theorem sortedK_nil {α : Type} : SortedK ([] : List (String × α)) := by
  simp [SortedK, keysOf, SortedS]

theorem sortedK_leftFactor {nt : String} {prods : List Production}
    {m : Grammar} {c : Nat} (h : SortedK m) : SortedK (leftFactor nt prods m c).1 := by
  match prods with
  | [] => exact sortedK_mapInsert h
  | [q] => exact sortedK_mapInsert h
  | p :: q :: rest =>
    simp only [leftFactor]
    by_cases hc : foldPref p (q :: rest) = []
    · rw [if_pos hc]
      exact sortedK_mapInsert h
    · rw [if_neg hc]
      exact sortedK_mapInsert (sortedK_mapInsert h)

theorem sortedK_factoredOf (raw : Grammar) : SortedK (factoredOf raw) := by
  unfold factoredOf leftFactorPhase
  refine foldl_pres (fun (acc : Grammar × Nat) => SortedK acc.1) raw ([], 1)
    sortedK_nil ?_
  exact fun e _ acc hacc => sortedK_leftFactor hacc

theorem sortedK_leftRecursion {nt : String} {prods : List Production}
    {m : Grammar} (h : SortedK m) : SortedK (leftRecursion nt prods m) := by
  unfold leftRecursion
  by_cases hr : (prods.filter (fun p => p.head? = some nt)).map List.tail = []
  · simp only [hr, if_true]
    exact sortedK_mapInsert h
  · simp only [hr, if_false]
    exact sortedK_mapInsert (sortedK_mapInsert h)

theorem sortedK_finalOf (raw : Grammar) : SortedK (finalOf raw) := by
  unfold finalOf leftRecursionPhase
  exact foldl_pres SortedK (factoredOf raw) [] sortedK_nil
    (fun e _ acc hacc => sortedK_leftRecursion hacc)

/-- C9 helper: `"$"` is in FOLLOW(start) at initialization. -/
theorem followInit_dollar (g : Grammar) (startSymbol : String) :
    setMem "$" (getSet (followInit g startSymbol) startSymbol) = true := by
  unfold followInit addSym
  rw [getSet, mapLookup_mapInsert_self]
  exact setMem_setInsert_self _ _

/-- C6 scenario input: grammar `S -> A a | A b`, `A -> c | d` (keys in
`std::map` order), start symbol `S`. -/
def scenarioRaw : Grammar := [("A", [["c"], ["d"]]), ("S", [["A", "a"], ["A", "b"]])]

/-- C6: on the grammar `S -> A a | A b`, `A -> c | d` with start symbol S,
the pipeline left-factors S into `S -> A S'`, `S' -> a | b` with A
unchanged, the left-recursion phase changes nothing, and the FIRST sets,
FOLLOW sets and parsing table are exactly as the specification lists
them. -/
theorem c6_scenario_literal :
    factoredOf scenarioRaw =
      [("A", [["c"], ["d"]]), ("S", [["A", "S'"]]), ("S'", [["a"], ["b"]])] ∧
    finalOf scenarioRaw = factoredOf scenarioRaw ∧
    firstOf scenarioRaw =
      [("A", ["c", "d"]), ("S", ["c", "d"]), ("S'", ["a", "b"])] ∧
    followOf scenarioRaw "S" =
      [("A", ["a", "b"]), ("S", ["$"]), ("S'", ["$"])] ∧
    tableOf scenarioRaw "S" =
      [("A", [("c", ["c"]), ("d", ["d"])]),
       ("S", [("c", ["A", "S'"]), ("d", ["A", "S'"])]),
       ("S'", [("a", ["a"]), ("b", ["b"])])] := by
  decide

/-- C8: for every grammar whose key set includes the start symbol (and in
fact for every grammar at all), the end marker `"$"` is a member of
FOLLOW(startSymbol): it is inserted at initialization, and every pass of
the fixed-point loop only inserts symbols, so the membership is preserved
into the returned map. -/
theorem c8_endmarker_in_follow_start (g : Grammar) (first : SetMap)
    (startSymbol : String) (_hkey : mapLookup startSymbol g ≠ none) :
    setMem "$" (getSet (computeFollowSets g first startSymbol) startSymbol) = true := by
  unfold computeFollowSets
  have main := iterateFix_pres (followPass g first)
    (fun m => followInvP g first startSymbol m ∧
      setMem "$" (getSet m startSymbol) = true)
    (fun m hm => ⟨(followPass_ok g first startSymbol m hm.1).1,
      ext_setMem (followPass_ok g first startSymbol m hm.1).2 hm.2⟩)
    (followFuel g first) (followInit g startSymbol)
    ⟨followInvP_init g first startSymbol, followInit_dollar g startSymbol⟩
  exact main.2

/-- C8 witness at a concrete grammar. -/
theorem c8_endmarker_witness :
    mapLookup "S" [("S", [["a"]])] ≠ none ∧
    setMem "$" (getSet (computeFollowSets [("S", [["a"]])]
      (firstSet [("S", [["a"]])]) "S") "S") = true :=
  ⟨by decide, c8_endmarker_in_follow_start [("S", [["a"]])]
    (firstSet [("S", [["a"]])]) "S" (by decide)⟩

/-! Epsilon and the FOLLOW solver (C4). -/

theorem setMem_eq_false_iff {x : String} {s : List String} :
    setMem x s = false ↔ x ∉ s := by
  rw [← setMem_iff]
  cases setMem x s <;> simp

theorem getSet_mapInsert_self (k : String) (v : SymSet) (m : SetMap) :
    getSet (mapInsert k v m) k = v := by
  simp [getSet, mapLookup_mapInsert_self]

theorem getSet_mapInsert_ne {k k2 : String} (h : k2 ≠ k) (v : SymSet) (m : SetMap) :
    getSet (mapInsert k v m) k2 = getSet m k2 := by
  simp [getSet, mapLookup_mapInsert_ne h]

/-- Absence of the epsilon marker from every stored set. -/
def NoEps (m : SetMap) : Prop := ∀ k, setMem "ε" (getSet m k) = false

theorem addSym_noEps {k x : String} {m : SetMap} (hx : x ≠ "ε") (hm : NoEps m) :
    NoEps (addSym k x m) := by
  intro k2
  by_cases hk : k2 = k
  · subst hk
    unfold addSym
    rw [getSet_mapInsert_self, setMem_eq_false_iff]
    intro hmem
    rcases mem_setInsert.mp hmem with h | h
    · exact hx h.symm
    · exact setMem_eq_false_iff.mp (hm k2) h
  · unfold addSym
    rw [getSet_mapInsert_ne hk]
    exact hm k2

theorem addSymsNoEps_noEps {k : String} (xs : List String) (m : SetMap)
    (hm : NoEps m) : NoEps (addSymsNoEps k xs m) := by
  refine foldl_pres NoEps xs m hm ?_
  intro x _ m1 hm1
  by_cases hx : x = "ε"
  · simp only [hx, if_true]; exact hm1
  · simp only [hx, Bool.false_eq_true, if_false]
    exact addSym_noEps hx hm1

theorem addSymsAll_noEps {k : String} {xs : List String} (hxs : ∀ x ∈ xs, x ≠ "ε")
    (m : SetMap) (hm : NoEps m) : NoEps (addSymsAll k xs m) := by
  refine foldl_pres NoEps xs m hm ?_
  intro x hx m1 hm1
  exact addSym_noEps (hxs x hx) hm1

theorem noEps_getSet_ne {m : SetMap} (hm : NoEps m) (A : String) :
    ∀ x ∈ getSet m A, x ≠ "ε" := by
  intro x hx he
  subst he
  exact absurd (setMem_iff.mpr hx) (by simp [hm A])

theorem followAfter_noEps {g : Grammar} {first : SetMap} {A B : String} :
    ∀ (tokens : List String) (m : SetMap), "ε" ∉ tokens → NoEps m →
      NoEps (followAfter g first A B tokens m) := by
  intro tokens
  induction tokens with
  | nil =>
    intro m _ hm
    exact addSymsAll_noEps (noEps_getSet_ne hm A) m hm
  | cons t rest ih =>
    intro m htok hm
    by_cases hnt : isNT g t = true
    · simp only [followAfter, hnt, if_true]
      have h1 := addSymsNoEps_noEps (k := B) (getSet first t) m hm
      by_cases hmem : setMem "ε" (getSet first t) = true
      · simp only [hmem, if_true]
        exact ih _ (fun h => htok (List.mem_cons_of_mem t h)) h1
      · rw [Bool.not_eq_true] at hmem
        simp only [hmem, Bool.false_eq_true, if_false]
        exact h1
    · rw [Bool.not_eq_true] at hnt
      simp only [followAfter, hnt, Bool.false_eq_true, if_false]
      exact addSym_noEps (fun he => htok (he ▸ List.mem_cons_self t rest)) hm

theorem followPositions_noEps {g : Grammar} {first : SetMap} {A : String} :
    ∀ (tokens : List String) (m : SetMap), "ε" ∉ tokens.tail → NoEps m →
      NoEps (followPositions g first A tokens m) := by
  intro tokens
  induction tokens with
  | nil => intro m _ hm; exact hm
  | cons t rest ih =>
    intro m htok hm
    simp only [followPositions]
    have h1 : NoEps (if isNT g t = true then followAfter g first A t rest m else m) := by
      by_cases hnt : isNT g t = true
      · simp only [hnt, if_true]
        exact followAfter_noEps rest m htok hm
      · rw [Bool.not_eq_true] at hnt
        simp only [hnt, Bool.false_eq_true, if_false]
        exact hm
    exact ih _ (fun h => htok (List.mem_of_mem_tail h)) h1

theorem followPass_noEps {g : Grammar} {first : SetMap}
    (hg : ∀ e ∈ g, ∀ p ∈ e.2, "ε" ∉ p.tail) (m : SetMap) (hm : NoEps m) :
    NoEps (followPass g first m) := by
  unfold followPass
  refine foldl_pres NoEps g m hm ?_
  intro e he m1 hm1
  refine foldl_pres NoEps e.2 m1 hm1 ?_
  intro p hp m2 hm2
  exact followPositions_noEps p m2 (hg e he p hp) hm2

theorem followInit_noEps (g : Grammar) (startSymbol : String) :
    NoEps (followInit g startSymbol) := by
  intro k
  unfold followInit addSym
  by_cases hk : k = startSymbol
  · subst hk
    rw [getSet_mapInsert_self, getSet_initSets]
    decide
  · rw [getSet_mapInsert_ne hk, getSet_initSets]
    rfl

/-- C4 (amended): when the epsilon token occurs only as the first token of
a production (in particular as a standalone epsilon alternative), no
FOLLOW set ever contains Epsilon: the solver inserts only the end marker,
terminal tokens standing after a non-terminal, FIRST members explicitly
filtered of Epsilon, and members of other FOLLOW sets.  (Without the
restriction the solver treats a mid-production epsilon token as an
ordinary terminal and inserts it; see the counterexample.) -/
theorem c4_follow_no_epsilon (g : Grammar) (first : SetMap) (startSymbol : String)
    (hg : ∀ e ∈ g, ∀ p ∈ e.2, "ε" ∉ p.tail) :
    ∀ B : String, setMem "ε" (getSet (computeFollowSets g first startSymbol) B) = false := by
  unfold computeFollowSets
  exact iterateFix_pres (followPass g first) NoEps (followPass_noEps hg)
    (followFuel g first) (followInit g startSymbol)
    (followInit_noEps g startSymbol)

/-- C4 witness at a concrete grammar with a standalone epsilon alternative. -/
theorem c4_follow_no_epsilon_witness :
    (∀ e ∈ [("B", [["b"], ["ε"]]), ("S", [["B", "a"]])], ∀ p ∈ e.2, "ε" ∉ p.tail) ∧
    setMem "ε" (getSet (computeFollowSets [("B", [["b"], ["ε"]]), ("S", [["B", "a"]])]
      (firstSet [("B", [["b"], ["ε"]]), ("S", [["B", "a"]])]) "S") "B") = false :=
  ⟨by decide, c4_follow_no_epsilon [("B", [["b"], ["ε"]]), ("S", [["B", "a"]])]
    (firstSet [("B", [["b"], ["ε"]]), ("S", [["B", "a"]])]) "S" (by decide) "B"⟩

/-- C4 counterexample: on the grammar `S -> B ε`, `B -> b` (the epsilon
token standing after a non-terminal inside a production), the FOLLOW
solver inserts Epsilon into FOLLOW(B), refuting the claim that Epsilon is
never a member of any FOLLOW set for every input grammar. -/
theorem c4_follow_epsilon_counterexample :
    setMem "ε" (getSet (computeFollowSets [("B", [["b"]]), ("S", [["B", "ε"]])]
      (firstSet [("B", [["b"]]), ("S", [["B", "ε"]])]) "S") "B") = true := by
  decide

/-! Epsilon propagation into FIRST, and the epsilon production's table
row (C7). -/

theorem getSet_addSym_self (k x : String) (m : SetMap) :
    getSet (addSym k x m) k = setInsert x (getSet m k) := by
  unfold addSym
  exact getSet_mapInsert_self _ _ _

theorem firstEntry_ok {g : Grammar} {e : String × List Production} (he : e ∈ g)
    (m : SetMap) (hm : firstInvP g m) :
    firstInvP g (e.2.foldl (fun a p => firstProd g e.1 p a) m) ∧
      Ext m (e.2.foldl (fun a p => firstProd g e.1 p a) m) := by
  obtain ⟨A, ps⟩ := e
  refine foldl_inv_ext (fun p hp m2 hm2 => ?_) m hm
  exact firstProd_ok (mem_keysOf_initSets he) p
    (fun t ht => mem_allTokens he hp ht) m2 hm2

theorem firstProd_eps (g : Grammar) (A : String) (m : SetMap) :
    firstProd g A ["ε"] m = addSym A "ε" m := by
  simp [firstProd, firstScan]

theorem firstRule_eps_go {g : Grammar} {A : String}
    (hAkey : A ∈ keysOf (initSets g)) :
    ∀ (l : List Production), (∀ p ∈ l, ∀ t ∈ p, t ∈ allTokens g) →
      ∀ m, firstInvP g m → (["ε"] ∈ l ∨ setMem "ε" (getSet m A) = true) →
      setMem "ε" (getSet (l.foldl (fun a p => firstProd g A p a) m) A) = true := by
  intro l
  induction l with
  | nil =>
    intro _ m _ h
    rcases h with h | h
    · simp at h
    · exact h
  | cons p r ih =>
    intro htoks m hm hor
    obtain ⟨h1, h2⟩ := firstProd_ok hAkey p (htoks p (List.mem_cons_self p r)) m hm
    rcases hor with h | h
    · rcases List.mem_cons.mp h with he | he
      · refine ih (fun q hq => htoks q (List.mem_cons_of_mem _ hq)) _ h1 (Or.inr ?_)
        rw [← he]
        show setMem "ε" (getSet (firstProd g A ["ε"] m) A) = true
        rw [firstProd_eps, getSet_addSym_self]
        exact setMem_setInsert_self _ _
      · exact ih (fun q hq => htoks q (List.mem_cons_of_mem _ hq)) _ h1 (Or.inl he)
    · exact ih (fun q hq => htoks q (List.mem_cons_of_mem _ hq)) _ h1
        (Or.inr (ext_setMem h2 h))

theorem firstPass_eps_go {g : Grammar} {A : String} {ps : List Production}
    (hA : (A, ps) ∈ g) (hp : ["ε"] ∈ ps) :
    ∀ (l : List (String × List Production)), (∀ e ∈ l, e ∈ g) →
      ∀ m, firstInvP g m → ((A, ps) ∈ l ∨ setMem "ε" (getSet m A) = true) →
      setMem "ε" (getSet
        (l.foldl (fun acc e => e.2.foldl (fun a p => firstProd g e.1 p a) acc) m) A) =
        true := by
  intro l
  induction l with
  | nil =>
    intro _ m _ h
    rcases h with h | h
    · simp at h
    · exact h
  | cons e r ih =>
    intro hsub m hm hor
    obtain ⟨hinv1, hext1⟩ := firstEntry_ok (hsub e (List.mem_cons_self e r)) m hm
    rcases hor with h | h
    · rcases List.mem_cons.mp h with he | he
      · refine ih (fun e2 he2 => hsub e2 (List.mem_cons_of_mem e he2)) _ hinv1 (Or.inr ?_)
        rw [← he]
        exact firstRule_eps_go (mem_keysOf_initSets hA) ps
          (fun q hq t ht => mem_allTokens hA hq ht) m hm (Or.inl hp)
      · exact ih (fun e2 he2 => hsub e2 (List.mem_cons_of_mem e he2)) _ hinv1 (Or.inl he)
    · exact ih (fun e2 he2 => hsub e2 (List.mem_cons_of_mem e he2)) _ hinv1
        (Or.inr (ext_setMem hext1 h))

theorem firstSet_eps_mem {g : Grammar} {A : String} {ps : List Production}
    (hA : (A, ps) ∈ g) (hp : ["ε"] ∈ ps) :
    setMem "ε" (getSet (firstSet g) A) = true := by
  have h2 := firstPass_eps_go hA hp g (fun e he => he) (firstSet g)
    (firstSet_inv g) (Or.inl hA)
  rw [← firstPass_fix g]
  exact h2

/-! Cell-level description of the table builder's writes. -/

theorem tblCell_tblInsert_self (A t : String) (p : Production) (tbl : Table) :
    tblCell (tblInsert A t p tbl) A t = some p := by
  unfold tblCell tblRow tblInsert
  rw [mapLookup_mapInsert_self]
  simp [mapLookup_mapInsert_self]

theorem tblCell_tblInsert_ne {t t2 : String} (h : t ≠ t2) (A : String)
    (p : Production) (tbl : Table) :
    tblCell (tblInsert A t2 p tbl) A t = tblCell tbl A t := by
  unfold tblCell tblRow tblInsert
  rw [mapLookup_mapInsert_self]
  simp [mapLookup_mapInsert_ne h]

theorem tblCell_tblInsert_neA {A B t : String} (h : A ≠ B) (t2 : String)
    (p : Production) (tbl : Table) :
    tblCell (tblInsert B t2 p tbl) A t = tblCell tbl A t := by
  unfold tblCell tblRow tblInsert
  rw [mapLookup_mapInsert_ne h]

theorem tblCell_allFold {A : String} {p : Production} {t : String} :
    ∀ (xs : List String) (tbl : Table),
      tblCell (xs.foldl (fun tb t2 => tblInsert A t2 p tb) tbl) A t =
        if setMem t xs = true then some p else tblCell tbl A t := by
  intro xs
  induction xs with
  | nil => intro tbl; simp [setMem]
  | cons x r ih =>
    intro tbl
    simp only [List.foldl_cons]
    rw [ih]
    by_cases hx : t = x
    · subst hx
      have hs : setMem t (t :: r) = true := by simp [setMem]
      rw [hs]
      by_cases hr : setMem t r = true
      · rw [if_pos hr]; simp
      · rw [Bool.not_eq_true] at hr
        rw [hr]
        simp [tblCell_tblInsert_self]
    · have hs : setMem t (x :: r) = setMem t r := by simp [setMem, hx]
      rw [hs, tblCell_tblInsert_ne hx]

theorem tblCell_filterFold {A : String} {p : Production} {t : String} :
    ∀ (xs : List String) (tbl : Table),
      tblCell (xs.foldl
          (fun tb t2 => if t2 = "ε" then tb else tblInsert A t2 p tb) tbl) A t =
        if (if t = "ε" then false else setMem t xs) = true then some p
        else tblCell tbl A t := by
  intro xs
  induction xs with
  | nil =>
    intro tbl
    by_cases ht : t = "ε" <;> simp [ht, setMem]
  | cons x r ih =>
    intro tbl
    simp only [List.foldl_cons]
    by_cases hxe : x = "ε"
    · rw [if_pos hxe, ih]
      have hc : (if t = "ε" then false else setMem t (x :: r)) =
          (if t = "ε" then false else setMem t r) := by
        by_cases ht : t = "ε"
        · rw [if_pos ht, if_pos ht]
        · rw [if_neg ht, if_neg ht]
          simp [setMem, show ¬ t = x from fun h => ht (h.trans hxe)]
      rw [hc]
    · rw [if_neg hxe, ih]
      by_cases ht : t = "ε"
      · rw [if_pos ht, if_pos ht]
        simp only [Bool.false_eq_true, if_false]
        exact tblCell_tblInsert_ne (fun h => hxe (h.symm.trans ht)) A p tbl
      · rw [if_neg ht, if_neg ht]
        by_cases hx : t = x
        · subst hx
          have hs : setMem t (t :: r) = true := by simp [setMem]
          rw [hs]
          by_cases hr : setMem t r = true
          · rw [if_pos hr]; simp
          · rw [Bool.not_eq_true] at hr
            rw [hr]
            simp [tblCell_tblInsert_self]
        · have hs : setMem t (x :: r) = setMem t r := by simp [setMem, hx]
          rw [hs, tblCell_tblInsert_ne hx]

theorem cfs_eps_only {g : Grammar} (first2 : SetMap)
    (heps : mapLookup "ε" g = none) :
    computeFirstOfString g first2 ["ε"] = ["ε"] := by
  simp [computeFirstOfString, cfsAux, isNT, heps, setInsert]

/-- C7: a production consisting solely of the literal epsilon token puts
Epsilon into FIRST of its non-terminal (established when the production is
scanned and preserved to the fixed point), and the table builder fills
that production's cells from FOLLOW(A) — one overwriting entry per member
of FOLLOW(A) — and from nothing else, because FIRST of the token string
`["ε"]` is exactly the singleton set holding Epsilon. -/
theorem c7_epsilon_production (g : Grammar) (A : String) (ps : List Production)
    (first2 follow : SetMap) (tbl : Table) (t : String)
    (hA : (A, ps) ∈ g) (hp : ["ε"] ∈ ps) (heps : mapLookup "ε" g = none) :
    setMem "ε" (getSet (firstSet g) A) = true ∧
    computeFirstOfString g first2 ["ε"] = ["ε"] ∧
    tblCell (procProd g first2 follow A ["ε"] tbl) A t =
      (if setMem t (getSet follow A) = true then some ["ε"]
       else tblCell tbl A t) := by
  refine ⟨firstSet_eps_mem hA hp, cfs_eps_only first2 heps, ?_⟩
  have hc : procProd g first2 follow A ["ε"] tbl =
      (getSet follow A).foldl (fun tb t2 => tblInsert A t2 ["ε"] tb) tbl := by
    unfold procProd
    rw [cfs_eps_only first2 heps]
    simp [setMem]
  rw [hc]
  exact tblCell_allFold (getSet follow A) tbl

/-- C7 witness at a concrete grammar with an epsilon alternative. -/
theorem c7_epsilon_witness :
    (("B" : String), [["b"], ["ε"]]) ∈
      [("B", [["b"], ["ε"]]), ("S", [["B", "a"]])] ∧
    setMem "ε" (getSet (firstSet [("B", [["b"], ["ε"]]), ("S", [["B", "a"]])]) "B") =
      true ∧
    tblCell (procProd [("B", [["b"], ["ε"]]), ("S", [["B", "a"]])] [] [("B", ["a"])]
        "B" ["ε"] []) "B" "a" = some ["ε"] := by
  have h := c7_epsilon_production [("B", [["b"], ["ε"]]), ("S", [["B", "a"]])]
    "B" [["b"], ["ε"]] [] [("B", ["a"])] [] "a"
    (by decide) (by decide) (by decide)
  refine ⟨by decide, h.1, ?_⟩
  rw [h.2.2]
  decide

/-! The table builder's conflict policy (C2). -/

/-- Whether production `p` of non-terminal `A` claims the cell at terminal
`t`: `t` is a member of FIRST(p) other than epsilon, or epsilon is a member
of FIRST(p) and `t` is a member of FOLLOW(A) — exactly the cells the
builder's two loops assign `p` to. -/
def cellClaim (g : Grammar) (first follow : SetMap) (A t : String)
    (p : Production) : Bool :=
  (if t = "ε" then false else setMem t (computeFirstOfString g first p)) ||
    (setMem "ε" (computeFirstOfString g first p) && setMem t (getSet follow A))

theorem procProd_eq (g : Grammar) (first follow : SetMap) (A : String)
    (p : Production) (tbl : Table) :
    procProd g first follow A p tbl =
      (if setMem "ε" (computeFirstOfString g first p) = true then
        (getSet follow A).foldl (fun tb t2 => tblInsert A t2 p tb)
          ((computeFirstOfString g first p).foldl
            (fun tb t2 => if t2 = "ε" then tb else tblInsert A t2 p tb) tbl)
      else
        (computeFirstOfString g first p).foldl
          (fun tb t2 => if t2 = "ε" then tb else tblInsert A t2 p tb) tbl) := rfl

theorem tblCell_procProd (g : Grammar) (first follow : SetMap) (A : String)
    (p : Production) (tbl : Table) (t : String) :
    tblCell (procProd g first follow A p tbl) A t =
      if cellClaim g first follow A t p = true then some p else tblCell tbl A t := by
  rw [procProd_eq]
  unfold cellClaim
  by_cases he : setMem "ε" (computeFirstOfString g first p) = true
  · rw [if_pos he, tblCell_allFold, tblCell_filterFold]
    by_cases hf : setMem t (getSet follow A) = true
    · rw [if_pos hf]
      simp [he, hf]
    · rw [Bool.not_eq_true] at hf
      rw [hf]
      simp [he, hf]
  · rw [Bool.not_eq_true] at he
    rw [if_neg (by rw [he]; exact Bool.false_ne_true), tblCell_filterFold]
    simp [he]

theorem tblCell_allFold_neA {A B : String} (h : A ≠ B) {p : Production} {t : String} :
    ∀ (xs : List String) (tbl : Table),
      tblCell (xs.foldl (fun tb t2 => tblInsert B t2 p tb) tbl) A t =
        tblCell tbl A t := by
  intro xs
  induction xs with
  | nil => intro tbl; rfl
  | cons x r ih =>
    intro tbl
    simp only [List.foldl_cons]
    rw [ih, tblCell_tblInsert_neA h]

theorem tblCell_filterFold_neA {A B : String} (h : A ≠ B) {p : Production} {t : String} :
    ∀ (xs : List String) (tbl : Table),
      tblCell (xs.foldl
          (fun tb t2 => if t2 = "ε" then tb else tblInsert B t2 p tb) tbl) A t =
        tblCell tbl A t := by
  intro xs
  induction xs with
  | nil => intro tbl; rfl
  | cons x r ih =>
    intro tbl
    simp only [List.foldl_cons]
    rw [ih]
    by_cases hx : x = "ε"
    · rw [if_pos hx]
    · rw [if_neg hx, tblCell_tblInsert_neA h]

theorem tblCell_procProd_neA {A B : String} (h : A ≠ B) (g : Grammar)
    (first follow : SetMap) (p : Production) (tbl : Table) (t : String) :
    tblCell (procProd g first follow B p tbl) A t = tblCell tbl A t := by
  rw [procProd_eq]
  by_cases he : setMem "ε" (computeFirstOfString g first p) = true
  · rw [if_pos he, tblCell_allFold_neA h, tblCell_filterFold_neA h]
  · rw [if_neg he, tblCell_filterFold_neA h]

theorem tblCell_ruleFold_neA {A B : String} (h : A ≠ B) (g : Grammar)
    (first follow : SetMap) (t : String) :
    ∀ (qs : List Production) (tbl : Table),
      tblCell (qs.foldl (fun tb q => procProd g first follow B q tb) tbl) A t =
        tblCell tbl A t := by
  intro qs
  induction qs with
  | nil => intro tbl; rfl
  | cons q r ih =>
    intro tbl
    simp only [List.foldl_cons]
    rw [ih, tblCell_procProd_neA h]

theorem tblCell_entriesFold_neA {g : Grammar} {first follow : SetMap}
    {A t : String} :
    ∀ (l : List (String × List Production)) (tbl : Table), (∀ e ∈ l, e.1 ≠ A) →
      tblCell (l.foldl
          (fun tb e => e.2.foldl (fun tb2 q => procProd g first follow e.1 q tb2) tb)
          tbl) A t =
        tblCell tbl A t := by
  intro l
  induction l with
  | nil => intro tbl _; rfl
  | cons e r ih =>
    intro tbl hne
    simp only [List.foldl_cons]
    rw [ih _ (fun e2 he2 => hne e2 (List.mem_cons_of_mem e he2)),
      tblCell_ruleFold_neA (fun ha => (hne e (List.mem_cons_self e r)) ha.symm)]

theorem tblCell_prodsFold_noclaim {g : Grammar} {first follow : SetMap}
    {A t : String} :
    ∀ (qs : List Production) (tbl : Table),
      (∀ q ∈ qs, cellClaim g first follow A t q = false) →
      tblCell (qs.foldl (fun tb q => procProd g first follow A q tb) tbl) A t =
        tblCell tbl A t := by
  intro qs
  induction qs with
  | nil => intro tbl _; rfl
  | cons q r ih =>
    intro tbl hq
    simp only [List.foldl_cons]
    rw [ih _ (fun q2 hq2 => hq q2 (List.mem_cons_of_mem q hq2)), tblCell_procProd,
      hq q (List.mem_cons_self q r)]
    simp

/-- C2: the table builder writes production `p` of non-terminal `A` into
exactly the cells `p` claims — every member of FIRST(p) except epsilon,
plus every member of FOLLOW(A) (end marker included) when epsilon is a
member of FIRST(p) — each write silently overwriting the cell; so when a
later-processed production of `A` claims a cell, it is that production
(the last claimant in the order the productions are stored) that the
finished table holds, with no error or diagnostic: the builder is a total
function returning only the table. -/
theorem c2_table_overwrite_last_claim (g : Grammar) (first follow : SetMap)
    (hs : SortedK g) (A : String) (ps l1 l2 : List Production) (p : Production)
    (t : String) (hA : mapLookup A g = some ps) (hsplit : ps = l1 ++ p :: l2)
    (hc : cellClaim g first follow A t p = true)
    (hafter : ∀ q ∈ l2, cellClaim g first follow A t q = false) :
    (∀ (q : Production) (tbl : Table),
      tblCell (procProd g first follow A q tbl) A t =
        (if cellClaim g first follow A t q = true then some q
         else tblCell tbl A t)) ∧
    tblCell (buildTable g first follow) A t = some p := by
  refine ⟨fun q tbl => tblCell_procProd g first follow A q tbl t, ?_⟩
  subst hsplit
  have hmem : (A, l1 ++ p :: l2) ∈ g := mem_of_mapLookup hA
  obtain ⟨g1, g2, hg⟩ := List.append_of_mem hmem
  subst hg
  have hsort : (g1 ++ (A, l1 ++ p :: l2) :: g2).Pairwise
      (fun a b => strLt a.1 b.1 = true) := by
    have hp := hs
    unfold SortedK SortedS keysOf at hp
    exact List.pairwise_map.mp hp
  have hg2 : ∀ e ∈ g2, e.1 ≠ A := by
    intro e he
    have hlt : strLt A e.1 = true :=
      ((List.pairwise_cons.mp (List.pairwise_append.mp hsort).2.1).1 e he)
    exact fun h => absurd (h ▸ hlt) (by simp [strLt_irrefl])
  unfold buildTable
  rw [List.foldl_append]
  simp only [List.foldl_cons]
  rw [tblCell_entriesFold_neA g2 _ hg2]
  rw [List.foldl_append]
  simp only [List.foldl_cons]
  rw [tblCell_prodsFold_noclaim l2 _ hafter, tblCell_procProd, hc]
  simp

/-- C2 witness: on the final grammar `B -> a`, `S -> a | B`, the
productions `a` and `B` of S both claim cell (S, a); the later-processed
production `B` is the cell's final value. -/
theorem c2_table_overwrite_witness :
    cellClaim [("B", [["a"]]), ("S", [["a"], ["B"]])]
      (firstSet [("B", [["a"]]), ("S", [["a"], ["B"]])])
      (computeFollowSets [("B", [["a"]]), ("S", [["a"], ["B"]])]
        (firstSet [("B", [["a"]]), ("S", [["a"], ["B"]])]) "S") "S" "a" ["a"] = true ∧
    tblCell (buildTable [("B", [["a"]]), ("S", [["a"], ["B"]])]
      (firstSet [("B", [["a"]]), ("S", [["a"], ["B"]])])
      (computeFollowSets [("B", [["a"]]), ("S", [["a"], ["B"]])]
        (firstSet [("B", [["a"]]), ("S", [["a"], ["B"]])]) "S")) "S" "a" =
      some ["B"] :=
  ⟨by decide,
    (c2_table_overwrite_last_claim [("B", [["a"]]), ("S", [["a"], ["B"]])]
      (firstSet [("B", [["a"]]), ("S", [["a"], ["B"]])])
      (computeFollowSets [("B", [["a"]]), ("S", [["a"], ["B"]])]
        (firstSet [("B", [["a"]]), ("S", [["a"], ["B"]])]) "S")
      (by unfold SortedK SortedS; decide) "S" [["a"], ["B"]] [["a"]] [] ["B"] "a"
      (by decide) rfl (by decide) (by decide)).2⟩

/-! Longest-common-prefix facts of the left factorer (C5, C3). -/

theorem pre_trans {a b c : List String} (h1 : ∃ u, a ++ u = b) (h2 : ∃ v, b ++ v = c) :
    ∃ w, a ++ w = c := by
  obtain ⟨u, hu⟩ := h1
  obtain ⟨v, hv⟩ := h2
  exact ⟨u ++ v, by rw [← List.append_assoc, hu, hv]⟩

theorem commonPref_pre_left : ∀ a b : List String, ∃ u, commonPref a b ++ u = a := by
  intro a
  induction a with
  | nil => intro b; exact ⟨[], rfl⟩
  | cons x as ih =>
    intro b
    cases b with
    | nil => exact ⟨x :: as, rfl⟩
    | cons y bs =>
      by_cases hxy : x = y
      · obtain ⟨u, hu⟩ := ih bs
        exact ⟨u, by simp only [commonPref, if_pos hxy, List.cons_append, hu]⟩
      · exact ⟨x :: as, by simp [commonPref, hxy]⟩

theorem commonPref_pre_right : ∀ a b : List String, ∃ u, commonPref a b ++ u = b := by
  intro a
  induction a with
  | nil => intro b; exact ⟨b, rfl⟩
  | cons x as ih =>
    intro b
    cases b with
    | nil => exact ⟨[], rfl⟩
    | cons y bs =>
      by_cases hxy : x = y
      · subst hxy
        obtain ⟨u, hu⟩ := ih bs
        exact ⟨u, by
          simp only [commonPref, if_pos rfl, if_true, eq_self_iff_true,
            List.cons_append, hu]⟩
      · exact ⟨y :: bs, by simp [commonPref, hxy]⟩

theorem commonPref_greatest : ∀ (l a b : List String),
    (∃ u, l ++ u = a) → (∃ v, l ++ v = b) → ∃ w, l ++ w = commonPref a b := by
  intro l
  induction l with
  | nil => intro a b _ _; exact ⟨commonPref a b, rfl⟩
  | cons x l2 ih =>
    intro a b h1 h2
    obtain ⟨u, hu⟩ := h1
    obtain ⟨v, hv⟩ := h2
    subst hu; subst hv
    obtain ⟨w, hw⟩ := ih (l2 ++ u) (l2 ++ v) ⟨u, rfl⟩ ⟨v, rfl⟩
    refine ⟨w, ?_⟩
    have hcc : commonPref ((x :: l2) ++ u) ((x :: l2) ++ v) =
        x :: commonPref (l2 ++ u) (l2 ++ v) := by
      simp [commonPref]
    rw [hcc, List.cons_append, hw]

theorem foldPref_pre_c : ∀ (rest : List Production) (c : List String),
    ∃ u, foldPref c rest ++ u = c := by
  intro rest
  induction rest with
  | nil => intro c; exact ⟨[], List.append_nil _⟩
  | cons p r ih =>
    intro c
    simp only [foldPref]
    by_cases hc : commonPref c p = []
    · rw [if_pos hc, hc]
      exact ⟨c, rfl⟩
    · rw [if_neg hc]
      exact pre_trans (ih (commonPref c p)) (commonPref_pre_left c p)

theorem foldPref_pre_mem : ∀ (rest : List Production) (c p2 : List String),
    p2 ∈ rest → ∃ u, foldPref c rest ++ u = p2 := by
  intro rest
  induction rest with
  | nil => intro c p2 h; simp at h
  | cons p r ih =>
    intro c p2 hp2
    simp only [foldPref]
    by_cases hc : commonPref c p = []
    · rw [if_pos hc, hc]
      exact ⟨p2, rfl⟩
    · rw [if_neg hc]
      rcases List.mem_cons.mp hp2 with he | he
      · subst he
        exact pre_trans (foldPref_pre_c r (commonPref c p2)) (commonPref_pre_right c p2)
      · exact ih (commonPref c p) p2 he

theorem foldPref_greatest : ∀ (rest : List Production) (c l : List String),
    (∃ u, l ++ u = c) → (∀ p2 ∈ rest, ∃ v, l ++ v = p2) →
    ∃ w, l ++ w = foldPref c rest := by
  intro rest
  induction rest with
  | nil => intro c l hc _; exact hc
  | cons p r ih =>
    intro c l hc hp
    simp only [foldPref]
    have hcp : ∃ w, l ++ w = commonPref c p :=
      commonPref_greatest l c p hc (hp p (List.mem_cons_self p r))
    by_cases h0 : commonPref c p = []
    · rw [if_pos h0]
      exact hcp
    · rw [if_neg h0]
      exact ih (commonPref c p) l hcp (fun q hq => hp q (List.mem_cons_of_mem p hq))

/-- C5: the left factorer copies the productions unchanged when there are
fewer than two of them or when the common prefix is empty; otherwise the
prefix it computes is a common prefix of every alternative and the longest
such (every common prefix of all alternatives is a prefix of it), the
non-terminal's productions are replaced by the single production
`prefix ++ [freshNonTerminal]`, and the fresh non-terminal receives exactly
one production per original alternative: the residual suffix, or a single
Epsilon production when the suffix is empty. -/
theorem c5_left_factor_structure (nt : String) (m : Grammar) (c : Nat)
    (hnm : mapLookup nt m = none) :
    (∀ prods : List Production, prods.length < 2 →
      mapLookup nt (leftFactor nt prods m c).1 = some prods) ∧
    (∀ (p q : Production) (rest : List Production), foldPref p (q :: rest) = [] →
      mapLookup nt (leftFactor nt (p :: q :: rest) m c).1 = some (p :: q :: rest)) ∧
    (∀ (p q : Production) (rest : List Production), foldPref p (q :: rest) ≠ [] →
      mapLookup nt (leftFactor nt (p :: q :: rest) m c).1 =
        some [foldPref p (q :: rest) ++ [factorName nt c]] ∧
      mapLookup (factorName nt c) (leftFactor nt (p :: q :: rest) m c).1 =
        some ((p :: q :: rest).map (fun r =>
          if r.drop (foldPref p (q :: rest)).length = [] then ["ε"]
          else r.drop (foldPref p (q :: rest)).length)) ∧
      (∀ r ∈ p :: q :: rest, ∃ u, foldPref p (q :: rest) ++ u = r) ∧
      (∀ l : List String, (∀ r ∈ p :: q :: rest, ∃ u, l ++ u = r) →
        ∃ w, l ++ w = foldPref p (q :: rest))) := by
  refine ⟨?_, ?_, ?_⟩
  · intro prods hlen
    cases prods with
    | nil => exact mapLookup_mapInsert_self nt [] m
    | cons p rest2 =>
      cases rest2 with
      | nil => exact mapLookup_mapInsert_self nt [p] m
      | cons q rest =>
        simp only [List.length_cons] at hlen
        omega
  · intro p q rest hc
    have hstep : (leftFactor nt (p :: q :: rest) m c).1 = mapInsert nt (p :: q :: rest) m := by
      simp only [leftFactor, if_pos hc]
    rw [hstep]
    exact mapLookup_mapInsert_self nt (p :: q :: rest) m
  · intro p q rest hc
    have hstep : (leftFactor nt (p :: q :: rest) m c).1 =
        mapInsert (factorName nt c)
          ((p :: q :: rest).map (fun r =>
            if r.drop (foldPref p (q :: rest)).length = [] then ["ε"]
            else r.drop (foldPref p (q :: rest)).length))
          (mapInsert nt [foldPref p (q :: rest) ++ [factorName nt c]] m) := by
      simp only [leftFactor, if_neg hc, mapPush, hnm]
      rfl
    refine ⟨?_, ?_, fun r hr => ?_, fun l hl => ?_⟩
    · rw [hstep, mapLookup_mapInsert_ne (factorName_ne_self nt c)]
      exact mapLookup_mapInsert_self _ _ _
    · rw [hstep]
      exact mapLookup_mapInsert_self _ _ _
    · rcases List.mem_cons.mp hr with he | he
      · subst he
        exact foldPref_pre_c (q :: rest) r
      · exact foldPref_pre_mem (q :: rest) p r he
    · exact foldPref_greatest (q :: rest) p l (hl p (List.mem_cons_self p (q :: rest)))
        (fun r hr => hl r (List.mem_cons_of_mem p hr))

/-- C5 witness: factoring `S -> A a | A b` in an empty accumulator. -/
theorem c5_left_factor_witness :
    mapLookup "S" ([] : Grammar) = none ∧
    mapLookup "S" (leftFactor "S" [["A", "a"], ["A", "b"]] [] 1).1 =
      some [foldPref ["A", "a"] [["A", "b"]] ++ [factorName "S" 1]] ∧
    mapLookup (factorName "S" 1) (leftFactor "S" [["A", "a"], ["A", "b"]] [] 1).1 =
      some [["a"], ["b"]] := by
  have h := (c5_left_factor_structure "S" [] 1 (by decide)).2.2
    ["A", "a"] ["A", "b"] [] (by decide)
  refine ⟨by decide, h.1, ?_⟩
  rw [h.2.1]
  decide

/-- C10: when every production of A is immediately left recursive, the
eliminator maps A to an empty list of alternatives, while the fresh
non-terminal receives one rewritten production per recursive alternative
plus a final Epsilon production. -/
theorem c10_all_recursive (nt : String) (prods : List Production) (m : Grammar)
    (hne : prods ≠ []) (hall : ∀ p ∈ prods, p.head? = some nt) :
    mapLookup nt (leftRecursion nt prods m) = some [] ∧
    mapLookup (nt ++ "'") (leftRecursion nt prods m) =
      some (prods.map (fun p => p.tail ++ [nt ++ "'"]) ++ [["ε"]]) := by
  have hfilter : prods.filter (fun p => p.head? = some nt) = prods :=
    List.filter_eq_self.mpr (fun p hp => by simp [hall p hp])
  have hnonrec : prods.filter (fun p => ¬ p.head? = some nt) = [] :=
    List.filter_eq_nil_iff.mpr (fun p hp => by simp [hall p hp])
  have hrne : prods.map List.tail ≠ [] := by
    intro h
    exact hne (List.map_eq_nil_iff.mp h)
  simp only [leftRecursion, hfilter, hnonrec]
  rw [if_neg hrne]
  constructor
  · rw [mapLookup_mapInsert_ne (ne_self_apo nt)]
    simp only [List.map_nil]
    exact mapLookup_mapInsert_self nt [] m
  · rw [mapLookup_mapInsert_self]
    rw [List.map_map]
    rfl

/-- C10 witness at the one-production grammar `A -> A x`. -/
theorem c10_all_recursive_witness :
    ([["A", "x"]] : List Production) ≠ [] ∧
    (∀ p ∈ ([["A", "x"]] : List Production), p.head? = some "A") ∧
    mapLookup "A" (leftRecursion "A" [["A", "x"]] []) = some [] ∧
    mapLookup "A'" (leftRecursion "A" [["A", "x"]] []) =
      some [["x", "A'"], ["ε"]] := by
  have h := c10_all_recursive "A" [["A", "x"]] [] (by decide) (by decide)
  exact ⟨by decide, by decide, h.1, h.2⟩

/-- C3 (amended): inside one left-factoring pass, the fresh name for a
factored non-terminal N at counter value c is `N'` when c = 1 (no fresh
name allocated yet — the counter starts at 1) and `N'` followed by the
counter value for every c ≥ 2 (at least one fresh name already allocated);
each allocation increments the counter by one.  Only the very first
allocation of the whole pass gets the bare apostrophe. -/
theorem c3_fresh_name_amended (nt : String) (p q : Production)
    (rest : List Production) (m : Grammar) (c : Nat)
    (hc : foldPref p (q :: rest) ≠ []) :
    (leftFactor nt (p :: q :: rest) m c).2 = c + 1 ∧
    mapLookup (factorName nt c) (leftFactor nt (p :: q :: rest) m c).1 =
      some ((p :: q :: rest).map (fun r =>
        if r.drop (foldPref p (q :: rest)).length = [] then ["ε"]
        else r.drop (foldPref p (q :: rest)).length)) ∧
    factorName nt 1 = nt ++ "'" ∧
    (∀ c2 : Nat, 2 ≤ c2 → factorName nt c2 = nt ++ "'" ++ toString c2) := by
  refine ⟨?_, ?_, rfl, fun c2 h2 => ?_⟩
  · simp only [leftFactor, if_neg hc]
  · simp only [leftFactor, if_neg hc]
    exact mapLookup_mapInsert_self _ _ _
  · unfold factorName
    rw [if_pos (by omega)]

/-- C3 witness: the first allocation at counter 1 gets the bare
apostrophe and bumps the counter to 2. -/
theorem c3_fresh_name_witness :
    foldPref ["a", "b"] [["a", "c"]] ≠ [] ∧
    (leftFactor "E" [["a", "b"], ["a", "c"]] [] 1).2 = 2 ∧
    factorName "E" 1 = "E'" := by
  have h := c3_fresh_name_amended "E" ["a", "b"] ["a", "c"] [] [] 1 (by decide)
  exact ⟨by decide, h.1, h.2.2.1⟩

/-- C3 counterexample: factoring the two-non-terminal grammar
`E -> a b | a c`, `T -> d e | d f` allocates `E'` for the first
factoring but `T'2` — not the bare `T'` the claim predicts — for the
second: the counter is appended as soon as one fresh name has been
allocated, not only after two. -/
theorem c3_fresh_name_counterexample :
    mapLookup "T'" (factoredOf
      [("E", [["a", "b"], ["a", "c"]]), ("T", [["d", "e"], ["d", "f"]])]) = none ∧
    mapLookup "T'2" (factoredOf
      [("E", [["a", "b"], ["a", "c"]]), ("T", [["d", "e"], ["d", "f"]])]) =
      some [["e"], ["f"]] := by
  decide

/-! Absence of direct left recursion after the pipeline (C1). -/

theorem mapLookup_leftRecursion_ne {A k : String} {ps : List Production}
    {m : Grammar} (h1 : k ≠ A) (h2 : k ++ "'" ≠ A) :
    mapLookup A (leftRecursion k ps m) = mapLookup A m := by
  simp only [leftRecursion]
  by_cases hr : (ps.filter (fun p => p.head? = some k)).map List.tail = []
  · rw [if_pos hr, mapLookup_mapInsert_ne (Ne.symm h1)]
  · rw [if_neg hr, mapLookup_mapInsert_ne (Ne.symm h2),
      mapLookup_mapInsert_ne (Ne.symm h1)]

theorem mapLookup_lrPhase_skip {A : String} :
    ∀ (l : List (String × List Production)) (m : Grammar),
      (∀ e ∈ l, e.1 ≠ A ∧ e.1 ++ "'" ≠ A) →
      mapLookup A (l.foldl (fun acc e => leftRecursion e.1 e.2 acc) m) =
        mapLookup A m := by
  intro l
  induction l with
  | nil => intro m _; rfl
  | cons e r ih =>
    intro m h
    simp only [List.foldl_cons]
    rw [ih _ (fun e2 he2 => h e2 (List.mem_cons_of_mem e he2))]
    exact mapLookup_leftRecursion_ne (h e (List.mem_cons_self e r)).1
      (h e (List.mem_cons_self e r)).2

theorem leftRecursion_self_no_head {A : String} {ps : List Production} {m : Grammar} :
    ∀ p ∈ (mapLookup A (leftRecursion A ps m)).getD [], p.head? ≠ some A := by
  intro p hp
  simp only [leftRecursion] at hp
  by_cases hr : (ps.filter (fun p2 => p2.head? = some A)).map List.tail = []
  · rw [if_pos hr, mapLookup_mapInsert_self] at hp
    simp only [Option.getD_some] at hp
    have hfil : ps.filter (fun p2 => p2.head? = some A) = [] :=
      List.map_eq_nil_iff.mp hr
    have hnp := List.filter_eq_nil_iff.mp hfil p hp
    simpa using hnp
  · rw [if_neg hr, mapLookup_mapInsert_ne (ne_self_apo A),
      mapLookup_mapInsert_self] at hp
    simp only [Option.getD_some] at hp
    obtain ⟨b, hb, hbp⟩ := List.mem_map.mp hp
    have hbne : ¬ b.head? = some A := by
      simpa using (List.mem_filter.mp hb).2
    subst hbp
    cases b with
    | nil =>
      simp only [List.nil_append, List.head?]
      intro he
      exact (ne_self_apo A) (by injection he with he2; exact he2.symm)
    | cons x xs =>
      simp only [List.cons_append, List.head?]
      simpa using hbne

/-- C1 (amended): for every raw grammar and every non-terminal A that is a
key of the *factored* grammar, no production of A in the final grammar
begins with A: the eliminator's own (over)write for A is the one the final
grammar keeps, and it starts every production with a non-recursive
alternative's head or with the fresh name A'.  The restriction to factored
keys is necessary: a freshly created non-terminal A' can itself be left
recursive when the token A' already occurs inside a production (see the
counterexample), because the eliminator removes recursion only in the
productions it is currently rewriting. -/
theorem c1_no_direct_left_recursion_amended (raw : Grammar) (A : String)
    (ps : List Production) (hA : mapLookup A (factoredOf raw) = some ps) :
    ∀ p ∈ (mapLookup A (finalOf raw)).getD [], p.head? ≠ some A := by
  intro p hp
  have hmem : (A, ps) ∈ factoredOf raw := mem_of_mapLookup hA
  obtain ⟨F1, F2, hF⟩ := List.append_of_mem hmem
  have hsort : (factoredOf raw).Pairwise (fun a b => strLt a.1 b.1 = true) := by
    have hs := sortedK_factoredOf raw
    unfold SortedK SortedS keysOf at hs
    exact List.pairwise_map.mp hs
  rw [hF] at hsort
  have hskip : ∀ e ∈ F2, e.1 ≠ A ∧ e.1 ++ "'" ≠ A := by
    intro e he
    have hlt : strLt A e.1 = true :=
      (List.pairwise_cons.mp (List.pairwise_append.mp hsort).2.1).1 e he
    constructor
    · exact fun h => absurd (h ▸ hlt) (by simp [strLt_irrefl])
    · intro h
      have hlt2 : strLt A (e.1 ++ "'") = true :=
        strLt_trans hlt (strLt_self_apo e.1)
      exact absurd (h ▸ hlt2) (by simp [strLt_irrefl])
  have hloc : mapLookup A (finalOf raw) =
      mapLookup A (leftRecursion A ps
        (F1.foldl (fun acc e => leftRecursion e.1 e.2 acc) [])) := by
    unfold finalOf leftRecursionPhase
    rw [hF, List.foldl_append]
    simp only [List.foldl_cons]
    exact mapLookup_lrPhase_skip F2 _ hskip
  rw [hloc] at hp
  exact leftRecursion_self_no_head p hp

/-- C1 witness at a concrete factored key. -/
theorem c1_no_direct_left_recursion_witness :
    mapLookup "S" (factoredOf [("S", [["S", "a"], ["b"]])]) =
      some [["S", "a"], ["b"]] ∧
    (mapLookup "S" (finalOf [("S", [["S", "a"], ["b"]])])).getD [] =
      [["b", "S'"]] ∧
    List.head? ["b", "S'"] ≠ some "S" := by
  refine ⟨by decide, by decide, ?_⟩
  exact c1_no_direct_left_recursion_amended [("S", [["S", "a"], ["b"]])] "S"
    [["S", "a"], ["b"]] (by decide) ["b", "S'"] (by decide)

/-- C1 counterexample: on the raw grammar `A -> A A' x | y` — where the
token `A'` happens to occur inside a production but is not a grammar
key — the pipeline's final grammar maps the freshly created non-terminal
`A'` to the productions `A' x A' | ε`, the first of which begins with
`A'` itself: a key of the final grammar whose production begins with that
very non-terminal, refuting the claim over all keys of the final
grammar. -/
theorem c1_no_direct_left_recursion_counterexample :
    ¬ (∀ (A : String) (p : Production),
        p ∈ (mapLookup A (finalOf [("A", [["A", "A'", "x"], ["y"]])])).getD [] →
        p.head? ≠ some A) :=
  fun h => h "A'" ["A'", "x", "A'"] (by decide) rfl

/-- C9: both fixed-point solvers terminate on every input: each pass only
inserts symbols drawn from a finite universe into sets over a fixed key
spine, so the total size strictly grows until a pass changes nothing, and
the fuel (keys times universe size, plus one) always suffices; the value
each solver returns is therefore a true fixed point of its pass — the
state at which the `while (changed)` loop exits. -/
theorem c9_solver_loops_terminate (g : Grammar) (first : SetMap)
    (startSymbol : String) :
    firstPass g (firstSet g) = firstSet g ∧
    followPass g first (computeFollowSets g first startSymbol) =
      computeFollowSets g first startSymbol :=
  ⟨firstPass_fix g, followPass_fix g first startSymbol⟩

end CFG
